import Mathlib

/-!
Verification of the Mermaid lint analysis subsystem of `viewer.mjs`
(`LINT_CONFIG`, `LintUtils`, `LintAnalyzers`, `MermaidLint`, `QuickFixHandlers`,
`LintUI.applyQuickFix`).  JavaScript strings are modelled as `List Char`;
every definition below is a direct translation of the corresponding
JavaScript source.
-/

namespace Merdia

/-- JavaScript strings, modelled as lists of characters. -/
abbrev Str := List Char

/-- Coerce a Lean string literal to the `Str` model. -/
def str (s : String) : Str := s.data

/-- JavaScript whitespace (the character class of `\s`, also used by
`String.prototype.trim`): tab, LF, VT, FF, CR, space, NBSP, and the Unicode
space separators, line/paragraph separators and BOM. -/
def isWs (c : Char) : Bool :=
  c = ' ' || c = '\t' || c = '\n' || c = '\x0b' || c = '\x0c' || c = '\r' ||
  c = ' ' || c = ' ' ||
  (' ' ≤ c && c ≤ ' ') ||
  c = ' ' || c = ' ' || c = ' ' || c = ' ' ||
  c = '　' || c = '﻿'

/-- The regex word-character class `[A-Za-z0-9_]` used by the lint patterns. -/
def isWordChar (c : Char) : Bool :=
  ('A' ≤ c && c ≤ 'Z') || ('a' ≤ c && c ≤ 'z') || ('0' ≤ c && c ≤ '9') || c = '_'

/-- The regex class `[A-Z]` under the `i` flag: an ASCII letter. -/
def isAsciiLetter (c : Char) : Bool :=
  ('A' ≤ c && c ≤ 'Z') || ('a' ≤ c && c ≤ 'z')

/-- ASCII upper-casing, as `String.prototype.toUpperCase` acts on the ASCII
letters that the direction capture can contain. -/
def asciiUpper (c : Char) : Char :=
  if 'a' ≤ c && c ≤ 'z' then Char.ofNat (c.toNat - 32) else c

/-- ASCII lower-casing, as `String.prototype.toLowerCase` acts on the
word characters (`[A-Za-z0-9_]`) that identifiers consist of. -/
def asciiLower (c : Char) : Char :=
  if 'A' ≤ c && c ≤ 'Z' then Char.ofNat (c.toNat + 32) else c

/-- Strip leading JavaScript whitespace. -/
def trimLeft (s : Str) : Str := s.dropWhile isWs

/-- Strip trailing JavaScript whitespace. -/
def trimRight (s : Str) : Str := ((s.reverse).dropWhile isWs).reverse

/-- `String.prototype.trim`. -/
def trim (s : Str) : Str := trimLeft (trimRight s)

/-- Prepend a character to the first line of a (nonempty) line list;
auxiliary for the line splitters. -/
def consHead (c : Char) : List Str → List Str
  | [] => [[c]]
  | l :: ls => (c :: l) :: ls

/-- `code.split(/\r?\n/)`: split on LF, treating a CR immediately followed
by LF as part of the separator (leftmost-first, as the JavaScript regex
engine finds matches). -/
def splitRN : Str → List Str
  | [] => [[]]
  | c :: rest =>
    if c = '\n' then [] :: splitRN rest
    else if c = '\r' then
      match rest with
      | '\n' :: rest2 => [] :: splitRN rest2
      | other => consHead '\r' (splitRN other)
    else consHead c (splitRN rest)

/-- `value.split('\n')`: split on exact LF characters. -/
def splitN : Str → List Str
  | [] => [[]]
  | c :: rest => if c = '\n' then [] :: splitN rest else consHead c (splitN rest)

/-- `lines.join('\n')`. -/
def joinN : List Str → Str
  | [] => []
  | [l] => l
  | l :: ls => l ++ '\n' :: joinN ls

/-- Literal (case-sensitive) prefix test, `String.prototype.startsWith`. -/
def startsWithLit (lit s : Str) : Bool := List.isPrefixOf lit s

/-- Case-insensitive literal prefix test (ASCII folding), as a regex literal
under the `i` flag matches. -/
def ciStarts (lit s : Str) : Bool :=
  List.isPrefixOf (lit.map asciiLower) ((s.take lit.length).map asciiLower)

/-- First index at which `needle` occurs as a substring of `hay`
(`String.prototype.indexOf`), if any. -/
def indexOfSub : Str → Str → Option Nat
  | needle, hay =>
    if List.isPrefixOf needle hay then some 0
    else match hay with
      | [] => none
      | _ :: t => (indexOfSub needle t).map (· + 1)

/-- `String.prototype.includes`. -/
def containsSub (needle hay : Str) : Bool := (indexOfSub needle hay).isSome

/-- `Array.prototype.findIndex`, with explicit running index. -/
def findIndexFrom (p : Str → Bool) : List Str → Nat → Option Nat
  | [], _ => none
  | l :: rest, i => if p l then some i else findIndexFrom p rest (i + 1)

/-- `lines.findIndex(pred)`. -/
def jsFindIndex (p : Str → Bool) (ls : List Str) : Option Nat := findIndexFrom p ls 0

/-- Is the character after a captured group a word boundary
(end of input or a non-word character)? -/
def atBoundary : Str → Bool
  | [] => true
  | c :: _ => !isWordChar c

-- ---------- LINT_CONFIG ----------

/-- `LINT_CONFIG.VALID_DIRECTIONS`. -/
def validDirections : List Str := [str "TD", str "TB", str "BT", str "RL", str "LR"]

/-- `LINT_CONFIG.MERMAID_KEYWORDS`. -/
def mermaidKeywords : List Str :=
  [str "graph", str "flowchart", str "subgraph", str "end",
   str "TD", str "TB", str "BT", str "RL", str "LR"]

/-- `LintUtils.isKeyword` (a case-sensitive `includes` check). -/
def isKeyword (t : Str) : Bool := mermaidKeywords.contains t

-- ---------- pattern matchers ----------

/-- `LINT_CONFIG.PATTERNS.SUBGRAPH_START = /^\s*subgraph\b/i` as a test. -/
def matchSubgraphStart (l : Str) : Bool :=
  let r := l.dropWhile isWs
  ciStarts (str "subgraph") r && atBoundary (r.drop 8)

/-- `LINT_CONFIG.PATTERNS.SUBGRAPH_END = /^\s*end\s*$/i` as a test. -/
def matchEndLine (l : Str) : Bool :=
  let r := l.dropWhile isWs
  ciStarts (str "end") r && (r.drop 3).all isWs

/-- `LINT_CONFIG.PATTERNS.DIRECTION = /^(graph|flowchart)\s+([A-Z]{1,2})\b/i`:
returns the second capture (the direction token, in source case) when the
pattern matches.  `[A-Z]{1,2}` is greedy, so two letters are tried before
one; `\b` requires a non-word character (or end) after the capture. -/
def matchDirection (l : Str) : Option Str :=
  let rest? : Option Str :=
    if ciStarts (str "graph") l then some (l.drop 5)
    else if ciStarts (str "flowchart") l then some (l.drop 9)
    else none
  match rest? with
  | none => none
  | some r =>
    if (r.takeWhile isWs).isEmpty then none
    else
      match r.dropWhile isWs with
      | c1 :: c2 :: rest2 =>
        if isAsciiLetter c1 && isAsciiLetter c2 && atBoundary rest2 then some [c1, c2]
        else if isAsciiLetter c1 && !isWordChar c2 then some [c1]
        else none
      | [c1] => if isAsciiLetter c1 then some [c1] else none
      | [] => none

/-- `LINT_CONFIG.PATTERNS.NODE_DEFINITION = /^\s*([A-Za-z0-9_]+)\s*[\[\(]/`:
returns the captured identifier when the pattern matches. -/
def nodeDefCapture (l : Str) : Option Str :=
  let r := l.dropWhile isWs
  let w := r.takeWhile isWordChar
  if w.isEmpty then none
  else
    match (r.dropWhile isWordChar).dropWhile isWs with
    | c :: _ => if c = '[' || c = '(' then some w else none
    | [] => none

/-- `trimmed.matchAll(/\b([A-Za-z0-9_]+)\b/g)`: the maximal runs of word
characters, in order of occurrence. `run` accumulates the current run in
reverse. -/
def wordRunsGo : Str → Str → List Str
  | [], run => if run.isEmpty then [] else [run.reverse]
  | c :: rest, run =>
    if isWordChar c then wordRunsGo rest (c :: run)
    else if run.isEmpty then wordRunsGo rest []
    else run.reverse :: wordRunsGo rest []

/-- All matches of `NODE_REFERENCE` on a line. -/
def wordRuns (s : Str) : List Str := wordRunsGo s []

-- ---------- the edge-arrow regex engine ----------
-- `EDGE_SOURCE = /([A-Za-z0-9_]+)\s*(?:-->|---|\.-\.|===>|\|\|[^\|]*\|\||[^=\-](?:-+>|=+>))/g`
-- `EDGE_TARGET = /(?:-->|---|\.-\.|===>|\|\|[^\|]*\|\||[^=\-](?:-+>|=+>))\s*([A-Za-z0-9_]+)/g`
-- modelled by backtracking exactly as the JavaScript engine does: the
-- capture `+` and `\s*` are greedy (longest first), the alternation is
-- tried left to right, and `matchAll` restarts after each match or, on
-- failure, one character further.

/-- Match a literal at the head of `s`, returning the remaining suffix. -/
def litMatch (lit s : Str) : Option Str :=
  if List.isPrefixOf lit s then some (s.drop lit.length) else none

/-- Match `(?:-+>|=+>)`.  The `+` is greedy; since a shorter run of dashes
is followed by another dash (never `>`), taking the maximal run then
requiring `>` is exact. -/
def matchArrowTail (s : Str) : Option Str :=
  match s with
  | '-' :: _ =>
    (match s.dropWhile (· = '-') with
     | '>' :: r => some r
     | _ => none)
  | '=' :: _ =>
    (match s.dropWhile (· = '=') with
     | '>' :: r => some r
     | _ => none)
  | _ => none

/-- Match `\|\|[^\|]*\|\|`.  `[^|]*` is greedy and cannot match `|`, so it
runs to the next `|`, where `||` must follow; shorter runs stop at a
non-`|` character and cannot satisfy the closing `||`. -/
def matchPipes (s : Str) : Option Str :=
  match litMatch (str "||") s with
  | none => none
  | some r =>
    match r.dropWhile (· ≠ '|') with
    | '|' :: '|' :: r2 => some r2
    | _ => none

/-- The arrow alternation, tried left to right.  At any given start
position at most one alternative can match (their first characters are
mutually exclusive), so first-match equals full backtracking. -/
def matchArrowAlt (s : Str) : Option Str :=
  match litMatch (str "-->") s with
  | some r => some r
  | none =>
  match litMatch (str "---") s with
  | some r => some r
  | none =>
  match litMatch (str ".-.") s with
  | some r => some r
  | none =>
  match litMatch (str "===>") s with
  | some r => some r
  | none =>
  match matchPipes s with
  | some r => some r
  | none =>
  match s with
  | c :: rest => if c ≠ '=' && c ≠ '-' then matchArrowTail rest else none
  | [] => none

/-- For `EDGE_SOURCE`: after the capture, try `\s*` greedily from `w`
whitespace characters down to none, then the arrow alternation. -/
def tryWsThenArrow : Nat → Str → Option Str
  | 0, after => matchArrowAlt after
  | w + 1, after =>
    match matchArrowAlt (after.drop (w + 1)) with
    | some r => some r
    | none => tryWsThenArrow w after

/-- For `EDGE_SOURCE`: try capture lengths greedily from `len` down to 1;
returns the capture and the suffix after the whole match. -/
def trySourceLen : Nat → Str → Option (Str × Str)
  | 0, _ => none
  | len + 1, s =>
    let after := s.drop (len + 1)
    match tryWsThenArrow (after.takeWhile isWs).length after with
    | some r => some (s.take (len + 1), r)
    | none => trySourceLen len s

/-- One attempt of `EDGE_SOURCE` at the current position. -/
def attemptSource (s : Str) : Option (Str × Str) :=
  trySourceLen (s.takeWhile isWordChar).length s

/-- One attempt of `EDGE_TARGET` at the current position: the arrow, then
`\s*` (whitespace and word characters are disjoint, so greedy is exact),
then a nonempty greedy word-character capture. -/
def attemptTarget (s : Str) : Option (Str × Str) :=
  match matchArrowAlt s with
  | none => none
  | some r =>
    let t := r.dropWhile isWs
    let w := t.takeWhile isWordChar
    if w.isEmpty then none else some (w, t.drop w.length)

/-- `matchAll` scan for `EDGE_SOURCE`: on a match, continue after it; on
failure, advance one character.  The fuel starts at the string length + 1,
which the scan can never exhaust since every step strictly shrinks the
suffix. -/
def edgeSourcesGo : Nat → Str → List Str
  | 0, _ => []
  | _ + 1, [] => []
  | fuel + 1, s@(_ :: rest) =>
    match attemptSource s with
    | some (cap, rem) => cap :: edgeSourcesGo fuel rem
    | none => edgeSourcesGo fuel rest

/-- All `EDGE_SOURCE` captures on a line, in match order. -/
def edgeSources (s : Str) : List Str := edgeSourcesGo (s.length + 1) s

/-- `matchAll` scan for `EDGE_TARGET`. -/
def edgeTargetsGo : Nat → Str → List Str
  | 0, _ => []
  | _ + 1, [] => []
  | fuel + 1, s@(_ :: rest) =>
    match attemptTarget s with
    | some (cap, rem) => cap :: edgeTargetsGo fuel rem
    | none => edgeTargetsGo fuel rest

/-- All `EDGE_TARGET` captures on a line, in match order. -/
def edgeTargets (s : Str) : List Str := edgeTargetsGo (s.length + 1) s

-- ---------- LintUtils.levenshteinDistance ----------

/-- One step of the inner `j` loop filling row `i` of the matrix:
`s1rest` is the remaining suffix of `str1`, `prev` the previous row
from column `j-1` on, and `cur` the entry just written at column `j-1`.
The equal-character test compares `str2.charAt(i-1)` (here `c2`) with
`str1.charAt(j-1)` (here `c1`). -/
def levRowGo (c2 : Char) : Str → List Nat → Nat → List Nat
  | [], _, _ => []
  | c1 :: rest1, prev, cur =>
    match prev with
    | pd :: prest =>
      let v := if c2 = c1 then pd
               else min (min (pd + 1) (cur + 1)) (prest.headD 0 + 1)
      v :: levRowGo c2 rest1 prest v
    | [] => []

/-- The outer `i` loop: fold over the characters of `str2`, producing the
final matrix row.  Each row starts with `matrix[i][0] = i`. -/
def levRowsGo (s1 : Str) : Str → List Nat → Nat → List Nat
  | [], prev, _ => prev
  | c2 :: rest2, prev, i =>
    levRowsGo s1 rest2 ((i + 1) :: levRowGo c2 s1 prev (i + 1)) (i + 1)

/-- `LintUtils.levenshteinDistance(str1, str2)`: dynamic programming over a
`(str2.length+1) × (str1.length+1)` matrix, first row `0..str1.length`,
first column `0..str2.length`, returning `matrix[str2.length][str1.length]`. -/
def levenshteinDistance (str1 str2 : Str) : Nat :=
  (levRowsGo str1 str2 (List.range (str1.length + 1)) 0).getLastD 0

/-- The matrix recurrence of `levenshteinDistance` written as a two-index
recursion: `levMatrix s1 s2 i j` is `matrix[i][j]` of the source's dynamic
program (row index `i` over `str2`, column index `j` over `str1`). -/
def levMatrix (s1 s2 : Str) : Nat → Nat → Nat
  | 0, j => j
  | i + 1, 0 => i + 1
  | i + 1, j + 1 =>
    if s2.getD i ' ' = s1.getD j ' ' then levMatrix s1 s2 i j
    else min (min (levMatrix s1 s2 i j + 1) (levMatrix s1 s2 (i + 1) j + 1))
             (levMatrix s1 s2 i (j + 1) + 1)

/-- `LintUtils.areSimilarNodes`: edit distance at most `MAX_DISTANCE = 2`
on the lower-cased names, and length difference at most
`MAX_LENGTH_DIFF = 2`. -/
def areSimilarNodes (node1 node2 : Str) : Bool :=
  levenshteinDistance (node1.map asciiLower) (node2.map asciiLower) ≤ 2 &&
  ((node1.length : Int) - (node2.length : Int)).natAbs ≤ 2

-- ---------- issues and quick fixes ----------

/-- The `quickFix` payloads produced by the analyzers (`replace`,
`add-end`, `define-node`). -/
inductive QuickFix where
  | replace (text : Str) (replacements : List Str)
  | addEnd (afterLine : Nat)
  | defineNode (nodeId : Str)
deriving DecidableEq, Repr

/-- `LintUtils.createIssue`: the lint issue record. -/
structure Issue where
  type : Str
  line : Nat
  column : Nat
  message : Str
  suggestion : Option Str
  quickFix : Option QuickFix
deriving DecidableEq, Repr

/-- `LINT_CONFIG.VALID_DIRECTIONS.join(', ')`. -/
def validDirectionsJoined : Str := str "TD, TB, BT, RL, LR"

/-- The `unknown-direction` issue for an invalid (upper-cased) direction
on 1-based line `lineNum`, with `column` as computed by the source. -/
def unknownDirectionIssue (lineNum column : Nat) (direction : Str) : Issue :=
  { type := str "unknown-direction"
    line := lineNum
    column := column
    message := str "Unknown direction \"" ++ direction ++ str "\". Valid directions are: " ++
               validDirectionsJoined
    suggestion := some (str "Change \"" ++ direction ++ str "\" to one of: " ++
                        validDirectionsJoined)
    quickFix := some (QuickFix.replace direction validDirections) }

/-- The `unexpected-end` issue at 1-based line `lineNum` (no quick fix). -/
def unexpectedEndIssue (lineNum : Nat) : Issue :=
  { type := str "unexpected-end"
    line := lineNum
    column := 1
    message := str "Unexpected \"end\" statement - no matching subgraph"
    suggestion := some (str "Remove this \"end\" statement or add a matching subgraph")
    quickFix := none }

/-- The `missing-end` issue for the subgraph opened at `startLine`, with an
`add-end` fix whose `afterLine` is the total number of lines. -/
def missingEndIssue (startLine totalLines : Nat) : Issue :=
  { type := str "missing-end"
    line := startLine
    column := 1
    message := str "Subgraph is missing closing \"end\" statement"
    suggestion := some (str "Add \"end\" statement to close this subgraph")
    quickFix := some (QuickFix.addEnd totalLines) }

/-- The `dangling-edge` (possible typo) issue for reference `nodeRef` at
1-based line `lineNum` and `column`, with a `define-node` fix. -/
def danglingEdgeIssue (lineNum column : Nat) (nodeRef : Str) : Issue :=
  { type := str "dangling-edge"
    line := lineNum
    column := column
    message := str "Node \"" ++ nodeRef ++ str "\" might be a typo - similar to existing nodes"
    suggestion := some (str "Check for typos in node name \"" ++ nodeRef ++ str "\"")
    quickFix := some (QuickFix.defineNode nodeRef) }

-- ---------- LintAnalyzers ----------

/-- The body of `LintAnalyzers.analyzeDirections` for the line at 0-based
index `i`: skip empty and comment lines, match the direction pattern, and
report an unknown direction. -/
def directionLineIssues (i : Nat) (rawLine : Str) : List Issue :=
  let line := trim rawLine
  if line.isEmpty || startsWithLit (str "%%") line then []
  else
    match matchDirection line with
    | none => []
    | some cap =>
      let direction := cap.map asciiUpper
      if validDirections.contains direction then []
      else
        let column := (indexOfSub cap line).getD 0 + 1
        [unknownDirectionIssue (i + 1) column direction]

/-- The `for` loop of `LintAnalyzers.analyzeDirections`, carrying the
0-based index of the first line of `ls`. -/
def analyzeDirectionsGo : Nat → List Str → List Issue
  | _, [] => []
  | i, l :: rest => directionLineIssues i l ++ analyzeDirectionsGo (i + 1) rest

/-- `LintAnalyzers.analyzeDirections`. -/
def analyzeDirections (lines : List Str) : List Issue := analyzeDirectionsGo 0 lines

/-- The loop of `LintAnalyzers.analyzeSubgraphs`: walks the lines carrying
the 0-based index of the head of `ls`, the subgraph stack (most recent
opener first, i.e. the top of the JavaScript array is our list head) and
the issues accumulated so far.  Returns the final issue list and stack. -/
def analyzeSubgraphsGo : List Str → Nat → List Nat → List Issue → List Issue × List Nat
  | [], _, stack, issues => (issues, stack)
  | l :: rest, i, stack, issues =>
    let line := trim l
    if line.isEmpty || startsWithLit (str "%%") line then
      analyzeSubgraphsGo rest (i + 1) stack issues
    else if matchSubgraphStart line then
      analyzeSubgraphsGo rest (i + 1) ((i + 1) :: stack) issues
    else if matchEndLine line then
      match stack with
      | [] => analyzeSubgraphsGo rest (i + 1) [] (issues ++ [unexpectedEndIssue (i + 1)])
      | _ :: stack' => analyzeSubgraphsGo rest (i + 1) stack' issues
    else
      analyzeSubgraphsGo rest (i + 1) stack issues

/-- `LintAnalyzers.analyzeSubgraphs`: the loop, then one `missing-end`
issue per line number still on the stack — the JavaScript array is
iterated bottom (oldest) first, which is our reversed list. -/
def analyzeSubgraphs (lines : List Str) : List Issue :=
  let (issues, stack) := analyzeSubgraphsGo lines 0 [] []
  issues ++ stack.reverse.map (fun startLine => missingEndIssue startLine lines.length)

/-- Append `x` to a JavaScript `Set` modelled as an insertion-ordered
duplicate-free list. -/
def addUnique (l : List Str) (x : Str) : List Str :=
  if l.contains x then l else l ++ [x]

/-- The per-line body of `LintAnalyzers.extractNodes`, updating the pair
`(nodes, referencedNodes)`. -/
def extractNodesLine (acc : List Str × List Str) (rawLine : Str) : List Str × List Str :=
  let trimmed := trim rawLine
  if trimmed.isEmpty || startsWithLit (str "%%") trimmed then acc
  else
    let nodes0 := match nodeDefCapture trimmed with
      | some w => addUnique acc.1 w
      | none => acc.1
    let nodes1 := (wordRuns trimmed).foldl
      (fun ns nodeId => if isKeyword nodeId then ns else addUnique ns nodeId) nodes0
    let refs1 := (edgeSources trimmed).foldl addUnique acc.2
    let refs2 := (edgeTargets trimmed).foldl addUnique refs1
    (nodes1, refs2)

/-- `LintAnalyzers.extractNodes`: returns `(nodes, referencedNodes)`. -/
def extractNodes (lines : List Str) : List Str × List Str :=
  lines.foldl extractNodesLine ([], [])

/-- The body of `LintAnalyzers.analyzeTypos` for one referenced node:
skip it when defined, too short (`MIN_NODE_LENGTH = 2`) or a keyword;
otherwise report a possible typo when some existing node is similar,
locating it at the first line containing it as a substring. -/
def typoIssuesFor (lines : List Str) (nodes : List Str) (nodeRef : Str) : List Issue :=
  if nodes.contains nodeRef || nodeRef.length < 2 || isKeyword nodeRef then []
  else if nodes.any (fun existingNode => areSimilarNodes nodeRef existingNode) then
    match jsFindIndex (fun line => containsSub nodeRef line) lines with
    | some lineIndex =>
      let line := lines.getD lineIndex []
      [danglingEdgeIssue (lineIndex + 1) ((indexOfSub nodeRef line).getD 0 + 1) nodeRef]
    | none => []
  else []

/-- `LintAnalyzers.analyzeTypos`: the loop over `referencedNodes` in
insertion order. -/
def analyzeTypos (lines : List Str) (nodes refs : List Str) : List Issue :=
  refs.flatMap (typoIssuesFor lines nodes)

/-- The typo pass as run by `MermaidLint.analyze` (extraction then
`analyzeTypos`). -/
def typoPass (lines : List Str) : List Issue :=
  let (nodes, refs) := extractNodes lines
  analyzeTypos lines nodes refs

/-- `MermaidLint.analyze` (= `analyzeMermaidCode`): empty and
whitespace-only input short-circuits to no issues; otherwise split into
lines and concatenate the three passes. -/
def analyze (code : Str) : List Issue :=
  if code.isEmpty || (trim code).isEmpty then []
  else
    let lines := splitRN code
    analyzeDirections lines ++ analyzeSubgraphs lines ++ typoPass lines

-- ---------- QuickFixHandlers and LintUI.applyQuickFix ----------

/-- `QuickFixHandlers.replace`: `dataLine` is the parsed `data-line`
attribute after the `|| 1` default; the replacement applies to the first
occurrence on the target line, and an out-of-range line is a no-op.
`String.prototype.replace` with a string argument replaces the first
occurrence only (and is the identity when absent). -/
def replaceFirst (oldT newT s : Str) : Str :=
  match indexOfSub oldT s with
  | some i => s.take i ++ newT ++ s.drop (i + oldT.length)
  | none => s

/-- `QuickFixHandlers.replace`. -/
def handlerReplace (dataLine : Nat) (oldT newT : Str) (lines : List Str) : List Str :=
  let line := if dataLine = 0 then 1 else dataLine
  if line ≤ lines.length then
    lines.set (line - 1) (replaceFirst oldT newT (lines.getD (line - 1) []))
  else lines

/-- `QuickFixHandlers['add-end']`: pushes a final `end` line; it reads
nothing from the button, so `_dataLine` (the stored `afterLine`) is unused. -/
def handlerAddEnd (_dataLine : Nat) (lines : List Str) : List Str :=
  lines ++ [str "end"]

/-- `QuickFixHandlers['define-node']`: inserts `    nodeId[nodeId]` at
index `max 0 (line-1)`; `Array.prototype.splice` clamps the start index to
the array length. -/
def handlerDefineNode (dataLine : Nat) (nodeId : Str) (lines : List Str) : List Str :=
  let line := if dataLine = 0 then 1 else dataLine
  let insertIndex := min (line - 1) lines.length
  lines.take insertIndex ++ [str "    " ++ nodeId ++ str "[" ++ nodeId ++ str "]"] ++
    lines.drop insertIndex

/-- `LintUI.applyQuickFix` for an `add-end` fix: split the editor text on
`'\n'`, run the handler, join with `'\n'`. -/
def applyAddEndFix (dataLine : Nat) (text : Str) : Str :=
  joinN (handlerAddEnd dataLine (splitN text))

-- ---------- spec-side definition for claim C2 ----------

/-- Modelled from the spec claim (C2), NOT from the source: the claim reads
the direction pattern as `^(graph|flowchart)\s+(DIRECTION)\b` "for any
direction word DIRECTION, of any length" — i.e. the capture is a maximal
nonempty run of letters of unbounded length followed by a word boundary.
The source instead bounds the capture by `[A-Z]{1,2}`. -/
def specDirectionCapture (l : Str) : Option Str :=
  let rest? : Option Str :=
    if ciStarts (str "graph") l then some (l.drop 5)
    else if ciStarts (str "flowchart") l then some (l.drop 9)
    else none
  match rest? with
  | none => none
  | some r =>
    if (r.takeWhile isWs).isEmpty then none
    else
      let t := r.dropWhile isWs
      let w := t.takeWhile isAsciiLetter
      if w.isEmpty then none
      else if atBoundary (t.drop w.length) then some w else none


-- ---------- auxiliary definitions for the statements and proofs ----------

/-- The relation "issues are in non-decreasing line order". -/
def lineLE (a b : Issue) : Prop := a.line ≤ b.line

/-- `Bool` test for a `missing-end` issue. -/
def isMissingEndIssue (iss : Issue) : Bool := iss.type == str "missing-end"

/-- `Bool` test for an `unexpected-end` issue. -/
def isUnexpectedEndIssue (iss : Issue) : Bool := iss.type == str "unexpected-end"

/-- The subgraph stack state of the analyzer after processing `ls`. -/
def subStack (ls : List Str) : List Nat := (analyzeSubgraphsGo ls 0 [] []).2

/-- A line that pushes onto the subgraph stack. -/
def isOpenerLine (l : Str) : Bool :=
  !((trim l).isEmpty || startsWithLit (str "%%") (trim l)) && matchSubgraphStart (trim l)

/-- A line that pops the subgraph stack (a bare `end`). -/
def isCloserLine (l : Str) : Bool :=
  !((trim l).isEmpty || startsWithLit (str "%%") (trim l)) &&
    !matchSubgraphStart (trim l) && matchEndLine (trim l)

/-- A document whose opener/closer lines form a properly nested (balanced)
bracket sequence: no prefix closes more subgraphs than it opened, and the
totals agree. -/
def BalancedLines (ls : List Str) : Prop :=
  (∀ n, n ≤ ls.length →
      (ls.take n).countP isCloserLine ≤ (ls.take n).countP isOpenerLine) ∧
  ls.countP isCloserLine = ls.countP isOpenerLine

/-- Remove a single trailing carriage return, if present (the effect on a
line of re-splitting after a `'\n'` was appended right after it). -/
def stripCR (l : Str) : Str :=
  match l.getLast? with
  | some '\r' => l.dropLast
  | _ => l

/-- Apply `f` to the last element of a list. -/
def modifyLast (f : Str → Str) : List Str → List Str
  | [] => []
  | [x] => [f x]
  | x :: xs => x :: modifyLast f xs

-- ==================== lemmas ====================

-- ----- consHead / splitRN -----

theorem consHead_ne_nil (c : Char) (ls : List Str) : consHead c ls ≠ [] := by
  cases ls <;> simp [consHead]

theorem splitRN_nil : splitRN [] = [[]] := by rw [splitRN.eq_def]

theorem splitRN_lf (rest : Str) : splitRN ('\n' :: rest) = [] :: splitRN rest := by
  rw [splitRN.eq_def]; simp

theorem splitRN_crlf (rest : Str) : splitRN ('\r' :: '\n' :: rest) = [] :: splitRN rest := by
  rw [splitRN.eq_def]; simp +decide

theorem splitRN_cr (rest : Str) (h : ∀ r2, rest ≠ '\n' :: r2) :
    splitRN ('\r' :: rest) = consHead '\r' (splitRN rest) := by
  rw [splitRN.eq_def]
  simp +decide only []
  cases rest with
  | nil => simp [consHead]
  | cons d r =>
    by_cases hd : d = '\n'
    · exact absurd (by rw [hd]) (h r)
    · simp +decide [hd]

theorem splitRN_other (c : Char) (rest : Str) (h1 : c ≠ '\n') (h2 : c ≠ '\r') :
    splitRN (c :: rest) = consHead c (splitRN rest) := by
  rw [splitRN.eq_def]
  simp only [h1, h2, if_false, ite_false]

theorem splitRN_ne_nil (s : Str) : splitRN s ≠ [] := by
  induction s using splitRN.induct with
  | case1 => simp [splitRN_nil]
  | case2 rest ih => simp [splitRN_lf]
  | case3 rest2 hne ih => simp [splitRN_crlf]
  | case4 other hother hne ih => rw [splitRN_cr other hother]; exact consHead_ne_nil _ _
  | case5 c rest h1 h2 ih => rw [splitRN_other c rest h1 h2]; exact consHead_ne_nil _ _

theorem mem_consHead (c : Char) (ls : List Str) (l : Str) (x : Char)
    (hl : l ∈ consHead c ls) (hx : x ∈ l) : x = c ∨ ∃ l', l' ∈ ls ∧ x ∈ l' := by
  cases ls with
  | nil =>
    simp [consHead] at hl
    subst hl
    simp at hx
    exact Or.inl hx
  | cons h t =>
    simp [consHead] at hl
    rcases hl with hl | hl
    · subst hl
      rcases List.mem_cons.mp hx with h1 | h1
      · exact Or.inl h1
      · exact Or.inr ⟨h, by simp, h1⟩
    · exact Or.inr ⟨l, by simp [hl], hx⟩

/-- Every character of a line produced by `splitRN` occurs in the input. -/
theorem mem_of_mem_splitRN (s : Str) : ∀ l ∈ splitRN s, ∀ c ∈ l, c ∈ s := by
  induction s using splitRN.induct with
  | case1 => intro l hl c hc; simp [splitRN_nil] at hl; subst hl; simp at hc
  | case2 rest ih =>
    intro l hl c hc
    rw [splitRN_lf] at hl
    rcases List.mem_cons.mp hl with h | h
    · subst h; simp at hc
    · exact List.mem_cons_of_mem _ (ih l h c hc)
  | case3 rest2 hne ih =>
    intro l hl c hc
    rw [splitRN_crlf] at hl
    rcases List.mem_cons.mp hl with h | h
    · subst h; simp at hc
    · exact List.mem_cons_of_mem _ (List.mem_cons_of_mem _ (ih l h c hc))
  | case4 other hother hne ih =>
    intro l hl c hc
    rw [splitRN_cr other hother] at hl
    rcases mem_consHead _ _ _ _ hl hc with h1 | ⟨l', hl', hc'⟩
    · subst h1; simp
    · exact List.mem_cons_of_mem _ (ih l' hl' c hc')
  | case5 c0 rest h1 h2 ih =>
    intro l hl c hc
    rw [splitRN_other c0 rest h1 h2] at hl
    rcases mem_consHead _ _ _ _ hl hc with h3 | ⟨l', hl', hc'⟩
    · subst h3; simp
    · exact List.mem_cons_of_mem _ (ih l' hl' c hc')

-- ----- trim -----

theorem mem_of_mem_trim {c : Char} {s : Str} (h : c ∈ trim s) : c ∈ s := by
  unfold trim trimLeft trimRight at h
  have h1 := (@List.dropWhile_sublist _ ((s.reverse.dropWhile isWs).reverse) isWs).mem h
  have h2 := List.mem_reverse.mp h1
  have h3 := (@List.dropWhile_sublist _ (s.reverse) isWs).mem h2
  exact List.mem_reverse.mp h3

theorem trim_eq_nil_iff (s : Str) : trim s = [] ↔ ∀ c ∈ s, isWs c = true := by
  constructor
  · intro h c hc
    by_contra hcw
    -- c survives both trimming passes unless it is whitespace
    have hR : c ∈ s.reverse.dropWhile isWs := by
      rcases (List.takeWhile_append_dropWhile isWs s.reverse) ▸
        List.mem_reverse.mpr hc with hmem
      rcases List.mem_append.mp hmem with h1 | h1
      · exact absurd (List.mem_takeWhile_imp h1) hcw
      · exact h1
    have hL : c ∈ trim s := by
      unfold trim trimLeft trimRight
      have hrev : c ∈ (s.reverse.dropWhile isWs).reverse := List.mem_reverse.mpr hR
      rcases (List.takeWhile_append_dropWhile isWs
        ((s.reverse.dropWhile isWs).reverse)) ▸ hrev with hmem
      rcases List.mem_append.mp hmem with h1 | h1
      · exact absurd (List.mem_takeWhile_imp h1) hcw
      · exact h1
    rw [h] at hL
    simp at hL
  · intro h
    unfold trim trimLeft trimRight
    rw [List.dropWhile_eq_nil_iff]
    intro x hx
    have h1 : x ∈ s.reverse.dropWhile isWs := List.mem_reverse.mp hx
    have h2 : x ∈ s.reverse := (@List.dropWhile_sublist _ (s.reverse) isWs).mem h1
    exact h x (List.mem_reverse.mp h2)

theorem trim_ne_nil_of_mem {c : Char} {s : Str} (hc : c ∈ s) (hw : isWs c = false) :
    trim s ≠ [] := by
  intro h
  have := (trim_eq_nil_iff s).mp h c hc
  rw [hw] at this
  exact Bool.false_ne_true this

theorem trimLeft_trim (s : Str) : (trim s).dropWhile isWs = trim s := by
  unfold trim trimLeft
  exact List.dropWhile_idempotent _ _

theorem trim_append_ws (s : Str) {c : Char} (hc : isWs c = true) :
    trim (s ++ [c]) = trim s := by
  unfold trim trimRight
  simp [hc]

-- ----- heads of matched lines -----

theorem ciStarts_cons {c0 : Char} {lit t : Str} (h : ciStarts (c0 :: lit) t = true) :
    ∃ c t', t = c :: t' ∧ asciiLower c = asciiLower c0 := by
  cases t with
  | nil => simp [ciStarts, List.isPrefixOf] at h
  | cons c t' =>
    refine ⟨c, t', rfl, ?_⟩
    simp only [ciStarts, List.take, List.map, List.isPrefixOf, Bool.and_eq_true,
      beq_iff_eq] at h
    exact h.1.symm

/-- A line whose trim matches `SUBGRAPH_END` starts (after trimming) with
`e` or `E`. -/
theorem matchEndLine_head {l : Str} (h : matchEndLine (trim l) = true) :
    ∃ c t', trim l = c :: t' ∧ asciiLower c = 'e' := by
  unfold matchEndLine at h
  rw [trimLeft_trim] at h
  have h1 := (Bool.and_eq_true _ _).mp h |>.1
  have : str "end" = 'e' :: str "nd" := rfl
  rw [this] at h1
  obtain ⟨c, t', ht, hc⟩ := ciStarts_cons h1
  exact ⟨c, t', ht, hc⟩

/-- A line whose trim matches `DIRECTION` starts (after trimming) with
`g`, `G`, `f` or `F`. -/
theorem matchDirection_head {l : Str} {cap : Str} (h : matchDirection (trim l) = some cap) :
    ∃ c t', trim l = c :: t' ∧ (asciiLower c = 'g' ∨ asciiLower c = 'f') := by
  unfold matchDirection at h
  by_cases hg : ciStarts (str "graph") (trim l) = true
  · have : str "graph" = 'g' :: str "raph" := rfl
    rw [this] at hg
    obtain ⟨c, t', ht, hc⟩ := ciStarts_cons hg
    exact ⟨c, t', ht, Or.inl hc⟩
  · by_cases hf : ciStarts (str "flowchart") (trim l) = true
    · have : str "flowchart" = 'f' :: str "lowchart" := rfl
      rw [this] at hf
      obtain ⟨c, t', ht, hc⟩ := ciStarts_cons hf
      exact ⟨c, t', ht, Or.inr hc⟩
    · rw [Bool.not_eq_true] at hg hf
      rw [hg, hf] at h
      simp at h

/-- A line whose trim matches `SUBGRAPH_START` starts (after trimming)
with `s` or `S`. -/
theorem matchSubgraphStart_head {l : Str} (h : matchSubgraphStart (trim l) = true) :
    ∃ c t', trim l = c :: t' ∧ asciiLower c = 's' := by
  unfold matchSubgraphStart at h
  rw [trimLeft_trim] at h
  have h1 := (Bool.and_eq_true _ _).mp h |>.1
  have : str "subgraph" = 's' :: str "ubgraph" := rfl
  rw [this] at h1
  obtain ⟨c, t', ht, hc⟩ := ciStarts_cons h1
  exact ⟨c, t', ht, hc⟩

/-- The analyzer guards for a line whose (trimmed) head has the given
lower-cased letter: the line is nonempty and not a `%%` comment. -/
theorem guards_of_head {l : Str} {c : Char} {t' : Str} {a : Char}
    (ht : trim l = c :: t') (hc : asciiLower c = a) (ha : a ≠ '%') :
    ((trim l).isEmpty || startsWithLit (str "%%") (trim l)) = false := by
  rw [ht]
  simp only [List.isEmpty_cons, Bool.false_or]
  have hp : str "%%" = '%' :: ['%'] := rfl
  rw [startsWithLit, hp]
  simp only [List.isPrefixOf, Bool.and_eq_true, beq_iff_eq]
  rw [Bool.eq_false_iff]
  intro hcontra
  simp only [Bool.and_eq_true, beq_iff_eq] at hcontra
  apply ha
  rw [← hc, ← hcontra.1]
  rfl

/-- An end-line is not a subgraph opener. -/
theorem not_subgraphStart_of_endLine {l : Str} (h : matchEndLine (trim l) = true) :
    matchSubgraphStart (trim l) = false := by
  obtain ⟨c, t', ht, hc⟩ := matchEndLine_head h
  rw [Bool.eq_false_iff]
  intro hs
  obtain ⟨c2, t2, ht2, hc2⟩ := matchSubgraphStart_head hs
  rw [ht] at ht2
  injection ht2 with h1 _
  rw [← h1] at hc2
  rw [hc] at hc2
  exact absurd hc2 (by decide)

-- ----- direction pass -----

theorem dirGo_append (xs ys : List Str) : ∀ i,
    analyzeDirectionsGo i (xs ++ ys) =
      analyzeDirectionsGo i xs ++ analyzeDirectionsGo (i + xs.length) ys := by
  induction xs with
  | nil => intro i; simp [analyzeDirectionsGo]
  | cons l rest ih =>
    intro i
    have harith : i + (rest.length + 1) = i + 1 + rest.length := by omega
    simp only [List.cons_append, analyzeDirectionsGo, List.append_eq, ih (i + 1),
      List.append_assoc, List.length_cons, harith]

theorem directionLineIssues_shape {i : Nat} {l : Str} {iss : Issue}
    (h : iss ∈ directionLineIssues i l) :
    iss.type = str "unknown-direction" ∧ 1 ≤ iss.column ∧ iss.line = i + 1 ∧
      ∃ d, iss.quickFix = some (QuickFix.replace d validDirections) := by
  unfold directionLineIssues at h
  simp only [] at h
  split at h
  · simp at h
  · split at h
    · simp at h
    · split at h
      · simp at h
      · simp only [List.mem_singleton] at h
        subst h
        refine ⟨rfl, by simp [unknownDirectionIssue], rfl, _, rfl⟩

theorem dirGo_shape : ∀ (ls : List Str) (i : Nat), ∀ iss ∈ analyzeDirectionsGo i ls,
    iss.type = str "unknown-direction" ∧ 1 ≤ iss.column ∧
    i + 1 ≤ iss.line ∧ iss.line ≤ i + ls.length ∧
    ∃ d, iss.quickFix = some (QuickFix.replace d validDirections) := by
  intro ls
  induction ls with
  | nil => intro i iss h; simp [analyzeDirectionsGo] at h
  | cons l rest ih =>
    intro i iss h
    simp only [analyzeDirectionsGo, List.mem_append] at h
    rcases h with h | h
    · obtain ⟨h1, h2, h3, h4⟩ := directionLineIssues_shape h
      refine ⟨h1, h2, by omega, ?_, h4⟩
      simp only [List.length_cons]
      omega
    · obtain ⟨h1, h2, h3, h4, h5⟩ := ih (i + 1) iss h
      refine ⟨h1, h2, by omega, ?_, h5⟩
      simp only [List.length_cons]
      omega

theorem dirGo_sorted : ∀ (ls : List Str) (i : Nat),
    List.Pairwise lineLE (analyzeDirectionsGo i ls) := by
  intro ls
  induction ls with
  | nil => intro i; simp [analyzeDirectionsGo]
  | cons l rest ih =>
    intro i
    simp only [analyzeDirectionsGo]
    rw [List.pairwise_append]
    refine ⟨?_, ih (i + 1), ?_⟩
    · unfold directionLineIssues
      simp only []
      split
      · simp
      · split
        · simp
        · split
          · simp
          · simp
    · intro a ha b hb
      have h1 := (directionLineIssues_shape ha).2.2.1
      have h2 := (dirGo_shape rest (i + 1) b hb).2.2.1
      unfold lineLE
      omega

-- ----- subgraph pass -----

theorem subGo_cons (l : Str) (rest : List Str) (i : Nat) (st : List Nat) (is : List Issue) :
    analyzeSubgraphsGo (l :: rest) i st is =
      if ((trim l).isEmpty || startsWithLit (str "%%") (trim l)) then
        analyzeSubgraphsGo rest (i + 1) st is
      else if matchSubgraphStart (trim l) then
        analyzeSubgraphsGo rest (i + 1) ((i + 1) :: st) is
      else if matchEndLine (trim l) then
        (match st with
         | [] => analyzeSubgraphsGo rest (i + 1) [] (is ++ [unexpectedEndIssue (i + 1)])
         | _ :: st' => analyzeSubgraphsGo rest (i + 1) st' is)
      else analyzeSubgraphsGo rest (i + 1) st is := rfl

theorem subGo_nil (i : Nat) (st : List Nat) (is : List Issue) :
    analyzeSubgraphsGo [] i st is = (is, st) := rfl

/-- Issues accumulate on the right of the accumulator. -/
theorem subGo_acc : ∀ (ls : List Str) (i : Nat) (st : List Nat) (is : List Issue),
    analyzeSubgraphsGo ls i st is =
      (is ++ (analyzeSubgraphsGo ls i st []).1, (analyzeSubgraphsGo ls i st []).2) := by
  intro ls
  induction ls with
  | nil => intro i st is; simp [subGo_nil]
  | cons l rest ih =>
    intro i st is
    rw [subGo_cons, subGo_cons]
    by_cases h1 : ((trim l).isEmpty || startsWithLit (str "%%") (trim l)) = true
    · simp only [h1, if_true]
      exact ih (i + 1) st is
    · rw [Bool.not_eq_true] at h1
      simp only [h1, Bool.false_eq_true, if_false]
      by_cases h2 : matchSubgraphStart (trim l) = true
      · simp only [h2, if_true]
        exact ih (i + 1) ((i + 1) :: st) is
      · rw [Bool.not_eq_true] at h2
        simp only [h2, Bool.false_eq_true, if_false]
        by_cases h3 : matchEndLine (trim l) = true
        · simp only [h3, if_true]
          cases st with
          | nil =>
            rw [ih (i + 1) [] (is ++ [unexpectedEndIssue (i + 1)]),
                ih (i + 1) [] ([] ++ [unexpectedEndIssue (i + 1)])]
            simp
          | cons m st' => exact ih (i + 1) st' is
        · rw [Bool.not_eq_true] at h3
          simp only [h3, Bool.false_eq_true, if_false]
          exact ih (i + 1) st is

/-- Processing a concatenation processes the parts in sequence. -/
theorem subGo_append : ∀ (xs ys : List Str) (i : Nat) (st : List Nat) (is : List Issue),
    analyzeSubgraphsGo (xs ++ ys) i st is =
      analyzeSubgraphsGo ys (i + xs.length)
        (analyzeSubgraphsGo xs i st is).2 (analyzeSubgraphsGo xs i st is).1 := by
  intro xs
  induction xs with
  | nil => intro ys i st is; simp [subGo_nil]
  | cons l rest ih =>
    intro ys i st is
    have harith : i + (rest.length + 1) = i + 1 + rest.length := by omega
    rw [List.cons_append, subGo_cons, subGo_cons]
    by_cases h1 : ((trim l).isEmpty || startsWithLit (str "%%") (trim l)) = true
    · simp only [h1, if_true, List.length_cons, harith]
      exact ih ys (i + 1) st is
    · rw [Bool.not_eq_true] at h1
      simp only [h1, Bool.false_eq_true, if_false, List.length_cons, harith]
      by_cases h2 : matchSubgraphStart (trim l) = true
      · simp only [h2, if_true]
        exact ih ys (i + 1) ((i + 1) :: st) is
      · rw [Bool.not_eq_true] at h2
        simp only [h2, Bool.false_eq_true, if_false]
        by_cases h3 : matchEndLine (trim l) = true
        · simp only [h3, if_true]
          cases st with
          | nil => exact ih ys (i + 1) [] (is ++ [unexpectedEndIssue (i + 1)])
          | cons m st' => exact ih ys (i + 1) st' is
        · rw [Bool.not_eq_true] at h3
          simp only [h3, Bool.false_eq_true, if_false]
          exact ih ys (i + 1) st is

/-- The master invariant of the subgraph loop: shape of the emitted
issues, their ordering, and the shape and ordering of the final stack. -/
theorem subGo_master : ∀ (ls : List Str) (i : Nat) (st : List Nat),
    List.Pairwise (· > ·) st → (∀ n ∈ st, 1 ≤ n ∧ n ≤ i) →
    (∀ iss ∈ (analyzeSubgraphsGo ls i st []).1,
        iss.type = str "unexpected-end" ∧ iss.column = 1 ∧ iss.quickFix = none ∧
        i + 1 ≤ iss.line ∧ iss.line ≤ i + ls.length) ∧
    List.Pairwise lineLE (analyzeSubgraphsGo ls i st []).1 ∧
    List.Pairwise (· > ·) (analyzeSubgraphsGo ls i st []).2 ∧
    (∀ n ∈ (analyzeSubgraphsGo ls i st []).2, 1 ≤ n ∧ n ≤ i + ls.length) ∧
    (∀ n ∈ (analyzeSubgraphsGo ls i st []).2, n ∈ st ∨ i + 1 ≤ n) ∧
    (∀ iss ∈ (analyzeSubgraphsGo ls i st []).1, ∀ n ∈ (analyzeSubgraphsGo ls i st []).2,
        iss.line < n) := by
  intro ls
  induction ls with
  | nil =>
    intro i st hsort hle
    rw [subGo_nil]
    refine ⟨by simp, by simp, hsort, ?_, ?_, by simp⟩
    · intro n hn; have := hle n hn; omega
    · intro n hn; exact Or.inl hn
  | cons l rest ih =>
    intro i st hsort hle
    rw [subGo_cons]
    by_cases h1 : ((trim l).isEmpty || startsWithLit (str "%%") (trim l)) = true
    case pos =>
      simp only [h1, if_true]
      obtain ⟨a, b, c, d, e, f⟩ := ih (i + 1) st hsort
        (fun n hn => ⟨(hle n hn).1, by have := (hle n hn).2; omega⟩)
      refine ⟨?_, b, c, ?_, ?_, f⟩
      · intro iss hiss
        obtain ⟨t, co, q, lo, hi⟩ := a iss hiss
        exact ⟨t, co, q, by omega, by simp only [List.length_cons]; omega⟩
      · intro n hn; have := d n hn; simp only [List.length_cons]; omega
      · intro n hn; rcases e n hn with h | h
        · exact Or.inl h
        · exact Or.inr (by omega)
    case neg =>
      rw [Bool.not_eq_true] at h1
      simp only [h1, Bool.false_eq_true, if_false]
      by_cases h2 : matchSubgraphStart (trim l) = true
      case pos =>
        simp only [h2, if_true]
        have hsort' : List.Pairwise (· > ·) ((i + 1) :: st) := by
          rw [List.pairwise_cons]
          exact ⟨fun n hn => by have := (hle n hn).2; omega, hsort⟩
        have hle' : ∀ n ∈ (i + 1) :: st, 1 ≤ n ∧ n ≤ i + 1 := by
          intro n hn
          rcases List.mem_cons.mp hn with h | h
          · omega
          · have := hle n h; omega
        obtain ⟨a, b, c, d, e, f⟩ := ih (i + 1) ((i + 1) :: st) hsort' hle'
        refine ⟨?_, b, c, ?_, ?_, f⟩
        · intro iss hiss
          obtain ⟨t, co, q, lo, hi⟩ := a iss hiss
          exact ⟨t, co, q, by omega, by simp only [List.length_cons]; omega⟩
        · intro n hn; have := d n hn; simp only [List.length_cons]; omega
        · intro n hn
          rcases e n hn with h | h
          · rcases List.mem_cons.mp h with h | h
            · exact Or.inr (by omega)
            · exact Or.inl h
          · exact Or.inr (by omega)
      case neg =>
        rw [Bool.not_eq_true] at h2
        simp only [h2, Bool.false_eq_true, if_false]
        by_cases h3 : matchEndLine (trim l) = true
        case pos =>
          simp only [h3, if_true]
          cases st with
          | nil =>
            rw [subGo_acc rest (i + 1) [] ([] ++ [unexpectedEndIssue (i + 1)])]
            obtain ⟨a, b, c, d, e, f⟩ := ih (i + 1) [] (by simp) (by simp)
            simp only [List.nil_append, List.singleton_append]
            constructor
            · intro iss hiss
              rcases List.mem_cons.mp hiss with h | h
              · subst h
                refine ⟨rfl, rfl, rfl, ?_, ?_⟩
                · simp [unexpectedEndIssue]
                · simp only [unexpectedEndIssue, List.length_cons]
                  omega
              · obtain ⟨t, co, q, lo, hi⟩ := a iss h
                exact ⟨t, co, q, by omega, by simp only [List.length_cons]; omega⟩
            constructor
            · rw [List.pairwise_cons]
              constructor
              · intro iss hiss
                have := (a iss hiss).2.2.2.1
                unfold lineLE
                simp only [unexpectedEndIssue]
                omega
              · exact b
            refine ⟨c, ?_, ?_, ?_⟩
            · intro n hn; have := d n hn; simp only [List.length_cons]; omega
            · intro n hn
              rcases e n hn with h | h
              · simp at h
              · exact Or.inr (by omega)
            · intro iss hiss n hn
              rcases List.mem_cons.mp hiss with h | h
              · subst h
                rcases e n hn with h | h
                · simp at h
                · simp only [unexpectedEndIssue]; omega
              · exact f iss h n hn
          | cons m st' =>
            obtain ⟨a, b, c, d, e, f⟩ := ih (i + 1) st' (List.Pairwise.of_cons hsort)
              (fun n hn => by
                have := hle n (List.mem_cons_of_mem m hn); omega)
            refine ⟨?_, b, c, ?_, ?_, f⟩
            · intro iss hiss
              obtain ⟨t, co, q, lo, hi⟩ := a iss hiss
              exact ⟨t, co, q, by omega, by simp only [List.length_cons]; omega⟩
            · intro n hn; have := d n hn; simp only [List.length_cons]; omega
            · intro n hn
              rcases e n hn with h | h
              · exact Or.inl (List.mem_cons_of_mem m h)
              · exact Or.inr (by omega)
        case neg =>
          rw [Bool.not_eq_true] at h3
          simp only [h3, Bool.false_eq_true, if_false]
          obtain ⟨a, b, c, d, e, f⟩ := ih (i + 1) st hsort
            (fun n hn => ⟨(hle n hn).1, by have := (hle n hn).2; omega⟩)
          refine ⟨?_, b, c, ?_, ?_, f⟩
          · intro iss hiss
            obtain ⟨t, co, q, lo, hi⟩ := a iss hiss
            exact ⟨t, co, q, by omega, by simp only [List.length_cons]; omega⟩
          · intro n hn; have := d n hn; simp only [List.length_cons]; omega
          · intro n hn; rcases e n hn with h | h
            · exact Or.inl h
            · exact Or.inr (by omega)

/-- `analyzeSubgraphs` in terms of the loop result. -/
theorem analyzeSubgraphs_eq (lines : List Str) :
    analyzeSubgraphs lines =
      (analyzeSubgraphsGo lines 0 [] []).1 ++
        (analyzeSubgraphsGo lines 0 [] []).2.reverse.map
          (fun startLine => missingEndIssue startLine lines.length) := by
  unfold analyzeSubgraphs
  rcases h : analyzeSubgraphsGo lines 0 [] [] with ⟨is, st⟩
  simp

/-- Every subgraph-pass issue: line in range, column 1, and either an
`unexpected-end` without fix or a `missing-end` with the `add-end` fix. -/
theorem analyzeSubgraphs_shape (lines : List Str) : ∀ iss ∈ analyzeSubgraphs lines,
    1 ≤ iss.line ∧ iss.line ≤ lines.length ∧ iss.column = 1 ∧
    (iss.type = str "unexpected-end" ∧ iss.quickFix = none ∨
     iss.type = str "missing-end" ∧ iss.quickFix = some (QuickFix.addEnd lines.length)) := by
  intro iss hiss
  rw [analyzeSubgraphs_eq] at hiss
  obtain ⟨a, b, c, d, e, f⟩ := subGo_master lines 0 [] (by simp) (by simp)
  rcases List.mem_append.mp hiss with h | h
  · obtain ⟨t, co, q, lo, hi⟩ := a iss h
    exact ⟨by omega, by omega, co, Or.inl ⟨t, q⟩⟩
  · obtain ⟨n, hn, hissn⟩ := List.mem_map.mp h
    have hnst : n ∈ (analyzeSubgraphsGo lines 0 [] []).2 := List.mem_reverse.mp hn
    have hb := d n hnst
    subst hissn
    exact ⟨by simp [missingEndIssue]; omega, by simp [missingEndIssue]; omega, rfl,
      Or.inr ⟨rfl, rfl⟩⟩

/-- The subgraph pass emits issues in non-decreasing line order. -/
theorem analyzeSubgraphs_sorted (lines : List Str) :
    List.Pairwise lineLE (analyzeSubgraphs lines) := by
  rw [analyzeSubgraphs_eq]
  obtain ⟨a, b, c, d, e, f⟩ := subGo_master lines 0 [] (by simp) (by simp)
  rw [List.pairwise_append]
  refine ⟨b, ?_, ?_⟩
  · rw [List.pairwise_map, List.pairwise_reverse]
    exact c.imp (fun h => by unfold lineLE; simp [missingEndIssue]; omega)
  · intro x hx y hy
    obtain ⟨n, hn, hyn⟩ := List.mem_map.mp hy
    have hnst : n ∈ (analyzeSubgraphsGo lines 0 [] []).2 := List.mem_reverse.mp hn
    have := f x hx n hnst
    subst hyn
    unfold lineLE
    simp only [missingEndIssue]
    omega

/-- The number of `missing-end` issues is the size of the final stack. -/
theorem countP_missing_subgraphs (lines : List Str) :
    (analyzeSubgraphs lines).countP isMissingEndIssue =
      (analyzeSubgraphsGo lines 0 [] []).2.length := by
  rw [analyzeSubgraphs_eq, List.countP_append]
  obtain ⟨a, _, _, _, _, _⟩ := subGo_master lines 0 [] (by simp) (by simp)
  have h1 : (analyzeSubgraphsGo lines 0 [] []).1.countP isMissingEndIssue = 0 := by
    rw [List.countP_eq_zero]
    intro iss hiss
    have ht := (a iss hiss).1
    simp [isMissingEndIssue, ht, str]
  have h2 : ((analyzeSubgraphsGo lines 0 [] []).2.reverse.map
      (fun startLine => missingEndIssue startLine lines.length)).countP isMissingEndIssue =
      (analyzeSubgraphsGo lines 0 [] []).2.length := by
    rw [List.countP_eq_length.mpr, List.length_map, List.length_reverse]
    intro iss hiss
    obtain ⟨n, _, hissn⟩ := List.mem_map.mp hiss
    subst hissn
    simp [isMissingEndIssue, missingEndIssue]
  omega

-- ----- typo pass -----

theorem findIndexFrom_bound {p : Str → Bool} : ∀ (ls : List Str) (i j : Nat),
    findIndexFrom p ls i = some j → i ≤ j ∧ j < i + ls.length := by
  intro ls
  induction ls with
  | nil => intro i j h; simp [findIndexFrom] at h
  | cons l rest ih =>
    intro i j h
    unfold findIndexFrom at h
    split at h
    · injection h with h; subst h; simp
    · have := ih (i + 1) j h
      simp only [List.length_cons]
      omega

theorem typoIssuesFor_shape {lines nodes : List Str} {r : Str} {iss : Issue}
    (h : iss ∈ typoIssuesFor lines nodes r) :
    iss.type = str "dangling-edge" ∧ 1 ≤ iss.column ∧ 1 ≤ iss.line ∧
    iss.line ≤ lines.length ∧ iss.quickFix = some (QuickFix.defineNode r) ∧
    nodes.contains r = false := by
  unfold typoIssuesFor at h
  split at h
  case isTrue hskip => simp at h
  case isFalse hskip =>
    have hcontains : nodes.contains r = false := by
      by_cases hc : nodes.contains r = true
      · exact absurd (by simp only [hc, Bool.true_or]) hskip
      · exact Bool.not_eq_true _ |>.mp hc
    split at h
    · split at h
      case h_1 lineIndex hfind =>
        simp only [List.mem_singleton] at h
        subst h
        have hb := findIndexFrom_bound lines 0 lineIndex hfind
        refine ⟨rfl, by simp [danglingEdgeIssue], by simp [danglingEdgeIssue],
          ?_, rfl, hcontains⟩
        simp only [danglingEdgeIssue]
        omega
      case h_2 => simp at h
    · simp at h

theorem analyzeTypos_shape {lines nodes refs : List Str} {iss : Issue}
    (h : iss ∈ analyzeTypos lines nodes refs) :
    ∃ r, iss.type = str "dangling-edge" ∧ 1 ≤ iss.column ∧ 1 ≤ iss.line ∧
    iss.line ≤ lines.length ∧ iss.quickFix = some (QuickFix.defineNode r) ∧
    nodes.contains r = false := by
  unfold analyzeTypos at h
  obtain ⟨r, _, hr⟩ := List.mem_flatMap.mp h
  exact ⟨r, typoIssuesFor_shape hr⟩

theorem typoPass_eq (lines : List Str) :
    typoPass lines = analyzeTypos lines (extractNodes lines).1 (extractNodes lines).2 := by
  unfold typoPass
  rcases h : extractNodes lines with ⟨ns, rs⟩
  simp

-- ----- extractNodes membership -----

theorem mem_addUnique_self (l : List Str) (x : Str) : x ∈ addUnique l x := by
  unfold addUnique
  split
  case isTrue h => exact List.elem_iff.mp h
  case isFalse => simp

theorem mem_addUnique_of_mem {l : List Str} {x : Str} (y : Str) (h : x ∈ l) :
    x ∈ addUnique l y := by
  unfold addUnique
  split
  · exact h
  · simp [h]

theorem mem_foldl_addUnique {x : Str} : ∀ (ws : List Str) (acc : List Str),
    x ∈ acc → x ∈ ws.foldl addUnique acc := by
  intro ws
  induction ws with
  | nil => intro acc h; exact h
  | cons w rest ih => intro acc h; exact ih _ (mem_addUnique_of_mem w h)

theorem mem_foldl_kwAdd {x : Str} : ∀ (ws : List Str) (acc : List Str),
    x ∈ acc →
    x ∈ ws.foldl (fun ns nodeId => if isKeyword nodeId then ns else addUnique ns nodeId) acc := by
  intro ws
  induction ws with
  | nil => intro acc h; exact h
  | cons w rest ih =>
    intro acc h
    rw [List.foldl_cons]
    apply ih
    by_cases hk : isKeyword w = true
    · simpa [hk] using h
    · rw [Bool.not_eq_true] at hk
      simp only [hk, Bool.false_eq_true, if_false]
      exact mem_addUnique_of_mem w h

theorem mem_foldl_kwAdd_self {r : Str} (hkw : isKeyword r = false) :
    ∀ (ws : List Str) (acc : List Str), r ∈ ws →
    r ∈ ws.foldl (fun ns nodeId => if isKeyword nodeId then ns else addUnique ns nodeId) acc := by
  intro ws
  induction ws with
  | nil => intro acc h; simp at h
  | cons w rest ih =>
    intro acc h
    rcases List.mem_cons.mp h with h | h
    · subst h
      rw [List.foldl_cons]
      apply mem_foldl_kwAdd
      simp only [hkw, Bool.false_eq_true, if_false]
      exact mem_addUnique_self acc r
    · rw [List.foldl_cons]
      exact ih _ h

theorem extractNodesLine_skip (acc : List Str × List Str) (l : Str)
    (h : ((trim l).isEmpty || startsWithLit (str "%%") (trim l)) = true) :
    extractNodesLine acc l = acc := by
  unfold extractNodesLine
  simp [h]

theorem extractNodesLine_go (acc : List Str × List Str) (l : Str)
    (h : ((trim l).isEmpty || startsWithLit (str "%%") (trim l)) = false) :
    extractNodesLine acc l =
      ((wordRuns (trim l)).foldl
        (fun ns nodeId => if isKeyword nodeId then ns else addUnique ns nodeId)
        (match nodeDefCapture (trim l) with
         | some w => addUnique acc.1 w
         | none => acc.1),
       (edgeTargets (trim l)).foldl addUnique
         ((edgeSources (trim l)).foldl addUnique acc.2)) := by
  unfold extractNodesLine
  simp [h]

theorem extractNodesLine_nodes_mono {x : Str} (acc : List Str × List Str) (l : Str)
    (h : x ∈ acc.1) : x ∈ (extractNodesLine acc l).1 := by
  by_cases hg : ((trim l).isEmpty || startsWithLit (str "%%") (trim l)) = true
  · rw [extractNodesLine_skip acc l hg]; exact h
  · rw [Bool.not_eq_true] at hg
    rw [extractNodesLine_go acc l hg]
    apply mem_foldl_kwAdd
    split
    · exact mem_addUnique_of_mem _ h
    · exact h

theorem extractNodesLine_adds {r : Str} (acc : List Str × List Str) (l : Str)
    (hcm : startsWithLit (str "%%") (trim l) = false)
    (hr : r ∈ wordRuns (trim l)) (hkw : isKeyword r = false) :
    r ∈ (extractNodesLine acc l).1 := by
  have hne : (trim l).isEmpty = false := by
    by_cases h : (trim l).isEmpty = true
    · rw [List.isEmpty_iff] at h
      rw [h] at hr
      simp [wordRuns, wordRunsGo] at hr
    · exact Bool.not_eq_true _ |>.mp h
  rw [extractNodesLine_go acc l (by rw [hne, hcm]; rfl)]
  exact mem_foldl_kwAdd_self hkw _ _ hr

theorem mem_foldl_extractNodes {x : Str} : ∀ (ls : List Str) (acc : List Str × List Str),
    x ∈ acc.1 → x ∈ (ls.foldl extractNodesLine acc).1 := by
  intro ls
  induction ls with
  | nil => intro acc h; exact h
  | cons l rest ih => intro acc h; exact ih _ (extractNodesLine_nodes_mono acc l h)

/-- A non-keyword word-bounded identifier occurring on any non-comment line
is collected into the node set. -/
theorem extractNodes_mem {lines : List Str} {l : Str} {r : Str}
    (hl : l ∈ lines) (hcm : startsWithLit (str "%%") (trim l) = false)
    (hr : r ∈ wordRuns (trim l)) (hkw : isKeyword r = false) :
    r ∈ (extractNodes lines).1 := by
  obtain ⟨s, t, hlines⟩ := List.append_of_mem hl
  subst hlines
  unfold extractNodes
  rw [List.foldl_append, List.foldl_cons]
  exact mem_foldl_extractNodes t _ (extractNodesLine_adds _ l hcm hr hkw)

-- ----- analyze-level glue -----

theorem analyze_trivial {code : Str} (h : trim code = []) : analyze code = [] := by
  unfold analyze
  rw [h]
  simp

theorem analyze_eq {code : Str} (h : trim code ≠ []) :
    analyze code = analyzeDirections (splitRN code) ++ analyzeSubgraphs (splitRN code) ++
      typoPass (splitRN code) := by
  have hcode : code ≠ [] := by
    intro h0
    subst h0
    exact h rfl
  unfold analyze
  rw [List.isEmpty_eq_false.mpr hcode, List.isEmpty_eq_false.mpr h]
  simp

/-- Every issue of `analyze` lies in one of the three passes. -/
theorem analyze_cases {code : Str} {iss : Issue} (h : iss ∈ analyze code) :
    iss ∈ analyzeDirections (splitRN code) ∨ iss ∈ analyzeSubgraphs (splitRN code) ∨
      iss ∈ typoPass (splitRN code) := by
  by_cases ht : trim code = []
  · rw [analyze_trivial ht] at h
    simp at h
  · rw [analyze_eq ht] at h
    rcases List.mem_append.mp h with h1 | h1
    · rcases List.mem_append.mp h1 with h2 | h2
      · exact Or.inl h2
      · exact Or.inr (Or.inl h2)
    · exact Or.inr (Or.inr h1)

/-- `missing-end` issues only arise in the subgraph pass. -/
theorem countP_missing_analyze {code : Str} (h : trim code ≠ []) :
    (analyze code).countP isMissingEndIssue =
      (analyzeSubgraphsGo (splitRN code) 0 [] []).2.length := by
  rw [analyze_eq h, List.countP_append, List.countP_append]
  have h1 : (analyzeDirections (splitRN code)).countP isMissingEndIssue = 0 := by
    rw [List.countP_eq_zero]
    intro iss hiss
    have := (dirGo_shape (splitRN code) 0 iss hiss).1
    simp [isMissingEndIssue, this, str]
  have h3 : (typoPass (splitRN code)).countP isMissingEndIssue = 0 := by
    rw [List.countP_eq_zero]
    intro iss hiss
    rw [typoPass_eq] at hiss
    obtain ⟨r, ht, -⟩ := analyzeTypos_shape hiss
    simp [isMissingEndIssue, ht, str]
  rw [h1, h3, countP_missing_subgraphs]
  omega

-- ----- balanced documents (C6) -----

theorem isOpenerLine_skip {l : Str}
    (h : ((trim l).isEmpty || startsWithLit (str "%%") (trim l)) = true) :
    isOpenerLine l = false ∧ isCloserLine l = false := by
  unfold isOpenerLine isCloserLine
  rw [h]
  simp

theorem isOpenerLine_push {l : Str}
    (h1 : ((trim l).isEmpty || startsWithLit (str "%%") (trim l)) = false)
    (h2 : matchSubgraphStart (trim l) = true) :
    isOpenerLine l = true ∧ isCloserLine l = false := by
  unfold isOpenerLine isCloserLine
  rw [h1, h2]
  simp

theorem isOpenerLine_pop {l : Str}
    (h1 : ((trim l).isEmpty || startsWithLit (str "%%") (trim l)) = false)
    (h2 : matchSubgraphStart (trim l) = false) (h3 : matchEndLine (trim l) = true) :
    isOpenerLine l = false ∧ isCloserLine l = true := by
  unfold isOpenerLine isCloserLine
  rw [h1, h2, h3]
  simp

theorem isOpenerLine_plain {l : Str}
    (h2 : matchSubgraphStart (trim l) = false) (h3 : matchEndLine (trim l) = false) :
    isOpenerLine l = false ∧ isCloserLine l = false := by
  unfold isOpenerLine isCloserLine
  rw [h2, h3]
  simp

/-- On a prefix-balanced document the subgraph loop emits no issues and
leaves `st.length + #openers - #closers` frames. -/
theorem subGo_balanced : ∀ (ls : List Str) (i : Nat) (st : List Nat),
    (∀ pre suf, ls = pre ++ suf →
        pre.countP isCloserLine ≤ st.length + pre.countP isOpenerLine) →
    (analyzeSubgraphsGo ls i st []).1 = [] ∧
    (analyzeSubgraphsGo ls i st []).2.length + ls.countP isCloserLine =
      st.length + ls.countP isOpenerLine := by
  intro ls
  induction ls with
  | nil =>
    intro i st hbal
    rw [subGo_nil]
    simp
  | cons l rest ih =>
    intro i st hbal
    have hrest : ∀ (st' : List Nat),
        st'.length + (if isCloserLine l then 1 else 0) =
          st.length + (if isOpenerLine l then 1 else 0) →
        ∀ pre suf, rest = pre ++ suf →
        pre.countP isCloserLine ≤ st'.length + pre.countP isOpenerLine := by
      intro st' hlen pre suf hps
      have := hbal (l :: pre) suf (by rw [hps]; rfl)
      rw [List.countP_cons, List.countP_cons] at this
      by_cases hc : isCloserLine l = true <;> by_cases ho : isOpenerLine l = true <;>
        simp [hc, ho] at this hlen ⊢ <;> omega
    rw [subGo_cons]
    by_cases h1 : ((trim l).isEmpty || startsWithLit (str "%%") (trim l)) = true
    · obtain ⟨ho, hc⟩ := isOpenerLine_skip h1
      simp only [h1, if_true]
      obtain ⟨ha, hb⟩ := ih (i + 1) st (hrest st (by rw [ho, hc]))
      refine ⟨ha, ?_⟩
      rw [List.countP_cons, List.countP_cons, ho, hc]
      simp only [Bool.false_eq_true, eq_self_iff_true, if_true, if_false]
      omega
    · rw [Bool.not_eq_true] at h1
      simp only [h1, Bool.false_eq_true, if_false]
      by_cases h2 : matchSubgraphStart (trim l) = true
      · obtain ⟨ho, hc⟩ := isOpenerLine_push h1 h2
        simp only [h2, if_true]
        obtain ⟨ha, hb⟩ := ih (i + 1) ((i + 1) :: st)
          (hrest ((i + 1) :: st) (by rw [ho, hc]; simp))
        refine ⟨ha, ?_⟩
        rw [List.countP_cons, List.countP_cons, ho, hc]
        simp only [List.length_cons] at hb
        simp only [Bool.false_eq_true, eq_self_iff_true, if_true, if_false]
        omega
      · rw [Bool.not_eq_true] at h2
        simp only [h2, Bool.false_eq_true, if_false]
        by_cases h3 : matchEndLine (trim l) = true
        · obtain ⟨ho, hc⟩ := isOpenerLine_pop h1 h2 h3
          simp only [h3, if_true]
          have hstlen : 1 ≤ st.length := by
            have := hbal [l] rest rfl
            rw [List.countP_cons, List.countP_cons] at this
            simp [ho, hc] at this
            omega
          cases st with
          | nil => simp at hstlen
          | cons m st' =>
            obtain ⟨ha, hb⟩ := ih (i + 1) st'
              (hrest st' (by rw [ho, hc]; simp))
            refine ⟨ha, ?_⟩
            rw [List.countP_cons, List.countP_cons, ho, hc]
            simp only [List.length_cons] at hb ⊢
            simp only [Bool.false_eq_true, eq_self_iff_true, if_true, if_false]
            omega
        · rw [Bool.not_eq_true] at h3
          obtain ⟨ho, hc⟩ := isOpenerLine_plain h2 h3
          simp only [h3, Bool.false_eq_true, if_false]
          obtain ⟨ha, hb⟩ := ih (i + 1) st (hrest st (by rw [ho, hc]))
          refine ⟨ha, ?_⟩
          rw [List.countP_cons, List.countP_cons, ho, hc]
          simp only [Bool.false_eq_true, eq_self_iff_true, if_true, if_false]
          omega

-- ----- fix application on text (C7) -----

theorem splitN_ne_nil (s : Str) : splitN s ≠ [] := by
  induction s with
  | nil => simp [splitN]
  | cons c rest ih =>
    unfold splitN
    split
    · simp
    · exact consHead_ne_nil _ _

theorem joinN_cons {x : Str} {ls : List Str} (h : ls ≠ []) :
    joinN (x :: ls) = x ++ '\n' :: joinN ls := by
  cases ls with
  | nil => exact absurd rfl h
  | cons y t => rfl

theorem joinN_consHead (c : Char) (ls : List Str) (h : ls ≠ []) :
    joinN (consHead c ls) = c :: joinN ls := by
  cases ls with
  | nil => exact absurd rfl h
  | cons y t =>
    cases t with
    | nil => rfl
    | cons z t2 => rfl

theorem joinN_splitN (s : Str) : joinN (splitN s) = s := by
  induction s with
  | nil => rfl
  | cons c rest ih =>
    unfold splitN
    split
    case isTrue h =>
      subst h
      rw [joinN_cons (splitN_ne_nil rest), ih]
      rfl
    case isFalse h =>
      rw [joinN_consHead c _ (splitN_ne_nil rest), ih]

theorem joinN_append_end (L : List Str) (x : Str) (h : L ≠ []) :
    joinN (L ++ [x]) = joinN L ++ '\n' :: x := by
  induction L with
  | nil => exact absurd rfl h
  | cons a t ih =>
    cases t with
    | nil => rfl
    | cons b t2 =>
      rw [List.cons_append, joinN_cons (by simp), joinN_cons (by simp), ih (by simp)]
      simp

/-- `LintUI.applyQuickFix` with an `add-end` handler appends `"\nend"` to
the editor text (the `'\n'` split/join round-trips). -/
theorem applyAddEndFix_eq (d : Nat) (text : Str) :
    applyAddEndFix d text = text ++ '\n' :: str "end" := by
  unfold applyAddEndFix handlerAddEnd
  rw [joinN_append_end _ _ (splitN_ne_nil text), joinN_splitN]

-- ----- stripCR / modifyLast -----

theorem stripCR_nil : stripCR [] = [] := rfl

theorem stripCR_concat (l : Str) (a : Char) :
    stripCR (l ++ [a]) = if a = '\r' then l else l ++ [a] := by
  unfold stripCR
  rw [List.getLast?_concat]
  by_cases ha : a = '\r'
  · subst ha
    simp [List.dropLast_concat]
  · rw [if_neg ha]
    split
    · rename_i h
      exact absurd (Option.some.inj h) ha
    · rfl

theorem trim_stripCR (l : Str) : trim (stripCR l) = trim l := by
  rcases List.eq_nil_or_concat l with h | ⟨l', a, h⟩
  · subst h; rfl
  · rw [List.concat_eq_append] at h
    subst h
    rw [stripCR_concat]
    by_cases ha : a = '\r'
    · subst ha
      rw [if_pos rfl, trim_append_ws l' (by decide)]
    · rw [if_neg ha]

theorem stripCR_cons {c : Char} {l : Str} (hl : l ≠ []) :
    stripCR (c :: l) = c :: stripCR l := by
  rcases List.eq_nil_or_concat l with h | ⟨l', a, h⟩
  · exact absurd h hl
  · rw [List.concat_eq_append] at h
    subst h
    have : c :: (l' ++ [a]) = (c :: l') ++ [a] := rfl
    rw [this, stripCR_concat, stripCR_concat]
    by_cases ha : a = '\r'
    · rw [if_pos ha, if_pos ha]
    · rw [if_neg ha, if_neg ha]
      rfl

theorem modifyLast_cons {f : Str → Str} {x : Str} {L : List Str} (h : L ≠ []) :
    modifyLast f (x :: L) = x :: modifyLast f L := by
  cases L with
  | nil => exact absurd rfl h
  | cons y t => rfl

theorem modifyLast_ne_nil {f : Str → Str} {L : List Str} (h : L ≠ []) :
    modifyLast f L ≠ [] := by
  cases L with
  | nil => exact absurd rfl h
  | cons y t =>
    cases t with
    | nil => simp [modifyLast]
    | cons z t2 => simp [modifyLast]

/-- The subgraph loop only inspects lines through `trim`. -/
theorem subGo_trim_congr : ∀ {ls1 ls2 : List Str},
    List.Forall₂ (fun a b => trim a = trim b) ls1 ls2 →
    ∀ (i : Nat) (st : List Nat) (is : List Issue),
    analyzeSubgraphsGo ls1 i st is = analyzeSubgraphsGo ls2 i st is := by
  intro ls1 ls2 h
  induction h with
  | nil => intros; rfl
  | @cons a b t1 t2 hab htail ih =>
    intro i st is
    rw [subGo_cons, subGo_cons, hab]
    by_cases h1 : ((trim b).isEmpty || startsWithLit (str "%%") (trim b)) = true
    · simp only [h1, if_true]; exact ih i.succ st is
    · rw [Bool.not_eq_true] at h1
      simp only [h1, Bool.false_eq_true, if_false]
      by_cases h2 : matchSubgraphStart (trim b) = true
      · simp only [h2, if_true]; exact ih i.succ _ is
      · rw [Bool.not_eq_true] at h2
        simp only [h2, Bool.false_eq_true, if_false]
        by_cases h3 : matchEndLine (trim b) = true
        · simp only [h3, if_true]
          cases st with
          | nil => exact ih i.succ _ _
          | cons m st' => exact ih i.succ _ _
        · rw [Bool.not_eq_true] at h3
          simp only [h3, Bool.false_eq_true, if_false]
          exact ih i.succ st is

theorem modifyLast_forall₂_trim : ∀ (L : List Str),
    List.Forall₂ (fun a b => trim a = trim b) (modifyLast stripCR L) L := by
  intro L
  induction L with
  | nil => exact List.Forall₂.nil
  | cons x t ih =>
    cases t with
    | nil => exact List.Forall₂.cons (trim_stripCR x) List.Forall₂.nil
    | cons y t2 =>
      rw [modifyLast_cons (by simp)]
      exact List.Forall₂.cons rfl ih

/-- A one-line `splitRN` result is a nonempty line. -/
theorem splitRN_singleton_ne_nil {d : Char} {t : Str} {l0 : Str}
    (h : splitRN (d :: t) = [l0]) : l0 ≠ [] := by
  by_cases hd : d = '\n'
  · subst hd
    rw [splitRN_lf] at h
    have := splitRN_ne_nil t
    injection h with h1 h2
    exact absurd h2 this
  · by_cases hd2 : d = '\r'
    · subst hd2
      cases t with
      | nil =>
        rw [splitRN_cr [] (by intro r2 h; cases h)] at h
        simp [splitRN_nil, consHead] at h
        subst h
        simp
      | cons e t2 =>
        by_cases he : e = '\n'
        · subst he
          rw [splitRN_crlf] at h
          have := splitRN_ne_nil t2
          injection h with h1 h2
          exact absurd h2 this
        · rw [splitRN_cr (e :: t2) (by intro r2 hr; injection hr with hr1; exact he hr1)] at h
          rcases h2 : splitRN (e :: t2) with _ | ⟨hd0, tl0⟩
          · exact absurd h2 (splitRN_ne_nil _)
          · rw [h2] at h
            simp [consHead] at h
            rw [← h.1]
            simp
    · rw [splitRN_other d t hd hd2] at h
      rcases h2 : splitRN t with _ | ⟨hd0, tl0⟩
      · exact absurd h2 (splitRN_ne_nil _)
      · rw [h2] at h
        simp [consHead] at h
        rw [← h.1]
        simp

theorem stripCR_cons_of {c : Char} {l0 : Str} (h : c ≠ '\r' ∨ l0 ≠ []) :
    stripCR (c :: l0) = c :: stripCR l0 := by
  rcases h with h | h
  · cases l0 with
    | nil =>
      have : (c :: ([] : Str)) = [] ++ [c] := rfl
      rw [this, stripCR_concat, if_neg h]
      rfl
    | cons a t => exact stripCR_cons (by simp)
  · exact stripCR_cons h

theorem consHead_modLast_append (c : Char) (e : Str) (L : List Str) (hL : L ≠ [])
    (hsing : ∀ l0, L = [l0] → stripCR (c :: l0) = c :: stripCR l0) :
    consHead c (modifyLast stripCR L ++ [e]) = modifyLast stripCR (consHead c L) ++ [e] := by
  cases L with
  | nil => exact absurd rfl hL
  | cons l0 t =>
    cases t with
    | nil =>
      simp only [modifyLast, List.singleton_append]
      rw [hsing l0 rfl]
      rfl
    | cons l1 t2 =>
      rw [modifyLast_cons (by simp : (l1 :: t2 : List Str) ≠ [])]
      simp only [consHead, List.cons_append]
      rw [modifyLast_cons (by simp : (l1 :: t2 : List Str) ≠ [])]
      rfl

/-- Splitting after appending `"\nend"`: every old line survives except
that the last may lose one trailing CR (it merges with the new LF), and a
final `end` line appears. -/
theorem splitRN_append_lf_end : ∀ s : Str,
    splitRN (s ++ '\n' :: str "end") =
      modifyLast stripCR (splitRN s) ++ [str "end"] := by
  intro s
  induction s using splitRN.induct with
  | case1 => decide
  | case2 rest ih =>
    rw [List.cons_append, splitRN_lf, splitRN_lf, ih,
      modifyLast_cons (splitRN_ne_nil rest)]
    rfl
  | case3 rest2 hne ih =>
    rw [List.cons_append, List.cons_append, splitRN_crlf, splitRN_crlf, ih,
      modifyLast_cons (splitRN_ne_nil rest2)]
    rfl
  | case4 other hother hne ih =>
    cases other with
    | nil =>
      rw [show ('\r' :: [] ++ '\n' :: str "end" : Str) = '\r' :: '\n' :: str "end" from rfl]
      rw [splitRN_crlf]
      rw [splitRN_cr [] (by intro r2 h; cases h), splitRN_nil]
      simp only [consHead, modifyLast]
      have : stripCR ['\r'] = [] := by
        have h0 : (['\r'] : Str) = [] ++ ['\r'] := rfl
        rw [h0, stripCR_concat, if_pos rfl]
      rw [this]
      rfl
    | cons d t =>
      have hd : d ≠ '\n' := by
        intro h
        exact hother t (by rw [h])
      rw [List.cons_append, splitRN_cr _ (by
        intro r2 h
        rw [List.cons_append] at h
        injection h with h1
        exact hd h1)]
      rw [splitRN_cr _ (by intro r2 h; injection h with h1; exact hd h1)]
      rw [ih]
      apply consHead_modLast_append _ _ _ (splitRN_ne_nil _)
      intro l0 hl0
      exact stripCR_cons_of (Or.inr (splitRN_singleton_ne_nil hl0))
  | case5 c rest h1 h2 ih =>
    rw [List.cons_append, splitRN_other c _ h1 (by assumption),
      splitRN_other c rest h1 (by assumption), ih]
    apply consHead_modLast_append _ _ _ (splitRN_ne_nil _)
    intro l0 hl0
    cases rest with
    | nil =>
      rw [splitRN_nil] at hl0
      injection hl0 with hl0a
      rw [← hl0a]
      exact stripCR_cons_of (Or.inl h2)
    | cons d t =>
      exact stripCR_cons_of (Or.inr (splitRN_singleton_ne_nil hl0))

theorem subGo_end_step (i : Nat) (st : List Nat) (is : List Issue) :
    analyzeSubgraphsGo [str "end"] i st is =
      match st with
      | [] => (is ++ [unexpectedEndIssue (i + 1)], [])
      | _ :: st' => (is, st') := by
  rw [subGo_cons]
  have h1 : ((trim (str "end")).isEmpty || startsWithLit (str "%%") (trim (str "end"))) =
      false := by decide
  have h2 : matchSubgraphStart (trim (str "end")) = false := by decide
  have h3 : matchEndLine (trim (str "end")) = true := by decide
  cases st with
  | nil => simp [h1, h2, h3, subGo_nil]
  | cons n st' => simp [h1, h2, h3, subGo_nil]

/-- Applying the `add-end` fix to a document with exactly one `missing-end`
issue removes all `missing-end` issues on re-analysis. -/
theorem countMissing_after_fix {code : Str}
    (h1 : (analyze code).countP isMissingEndIssue = 1) (d : Nat) :
    (analyze (applyAddEndFix d code)).countP isMissingEndIssue = 0 := by
  have htrim : trim code ≠ [] := by
    intro ht
    rw [analyze_trivial ht] at h1
    simp at h1
  have hstack : (analyzeSubgraphsGo (splitRN code) 0 [] []).2.length = 1 := by
    rw [countP_missing_analyze htrim] at h1
    exact h1
  rw [applyAddEndFix_eq]
  have htrim2 : trim (code ++ '\n' :: str "end") ≠ [] := by
    apply @trim_ne_nil_of_mem 'd'
    · exact List.mem_append.mpr (Or.inr (by decide))
    · decide
  rw [countP_missing_analyze htrim2, splitRN_append_lf_end, subGo_append,
    subGo_trim_congr (modifyLast_forall₂_trim (splitRN code)) 0 [] []]
  rcases hst : (analyzeSubgraphsGo (splitRN code) 0 [] []).2 with _ | ⟨n, st'⟩
  · rw [hst] at hstack
    simp at hstack
  · rw [hst] at hstack
    simp at hstack
    subst hstack
    rw [subGo_end_step]
    rfl

-- ----- Levenshtein: row implementation vs matrix recurrence -----

theorem getD_of_drop {l : Str} {i : Nat} {c : Char} {rest : Str}
    (h : l.drop i = c :: rest) : l.getD i ' ' = c := by
  have h2 : (l.drop i)[0]? = some c := by rw [h]; simp
  rw [List.getElem?_drop] at h2
  simp only [Nat.add_zero] at h2
  simp [List.getD_eq_getElem?_getD, h2]

theorem drop_succ_of_drop {l : Str} {i : Nat} {c : Char} {rest : Str}
    (h : l.drop i = c :: rest) : l.drop (i + 1) = rest := by
  rw [← List.drop_drop 1 i l, h]
  rfl

theorem levMatrix_zero (s1 s2 : Str) (j : Nat) : levMatrix s1 s2 0 j = j := by
  simp [levMatrix]

theorem levMatrix_succ_zero (s1 s2 : Str) (i : Nat) : levMatrix s1 s2 (i + 1) 0 = i + 1 := by
  simp [levMatrix]

theorem levMatrix_succ_succ (s1 s2 : Str) (i j : Nat) : levMatrix s1 s2 (i + 1) (j + 1) =
    if s2.getD i ' ' = s1.getD j ' ' then levMatrix s1 s2 i j
    else min (min (levMatrix s1 s2 i j + 1) (levMatrix s1 s2 (i + 1) j + 1))
             (levMatrix s1 s2 i (j + 1) + 1) := by
  rw [levMatrix]

/-- The inner loop fills row `i+1` of the matrix from row `i`. -/
theorem levRowGo_spec (s1 s2 : Str) (i : Nat) :
    ∀ (todo : Str) (j0 : Nat), s1.drop j0 = todo →
    levRowGo (s2.getD i ' ') todo
        ((List.range' j0 (todo.length + 1)).map (levMatrix s1 s2 i))
        (levMatrix s1 s2 (i + 1) j0) =
      (List.range' (j0 + 1) todo.length).map (levMatrix s1 s2 (i + 1)) := by
  intro todo
  induction todo with
  | nil => intro j0 _; rfl
  | cons c1 rest1 ih =>
    intro j0 hdrop
    have hc1 : s1.getD j0 ' ' = c1 := getD_of_drop hdrop
    have hdrop' : s1.drop (j0 + 1) = rest1 := drop_succ_of_drop hdrop
    simp only [List.length_cons]
    rw [List.range'_succ, List.map_cons]
    simp only [levRowGo]
    have hheadD : (((List.range' (j0 + 1) (rest1.length + 1)).map
        (levMatrix s1 s2 i)).headD 0) = levMatrix s1 s2 i (j0 + 1) := by
      rw [List.range'_succ, List.map_cons, List.headD_cons]
    rw [hheadD, ← hc1]
    have hv : (if s2.getD i ' ' = s1.getD j0 ' ' then levMatrix s1 s2 i j0
        else min (min (levMatrix s1 s2 i j0 + 1) (levMatrix s1 s2 (i + 1) j0 + 1))
          (levMatrix s1 s2 i (j0 + 1) + 1)) = levMatrix s1 s2 (i + 1) (j0 + 1) :=
      (levMatrix_succ_succ s1 s2 i j0).symm
    rw [hv]
    conv_rhs => rw [List.range'_succ, List.map_cons]
    rw [ih (j0 + 1) hdrop']

/-- The outer loop: after consuming `todo2` of `str2` the row holds
`matrix[i + todo2.length][·]`. -/
theorem levRowsGo_spec (s1 s2 : Str) :
    ∀ (todo2 : Str) (i : Nat), s2.drop i = todo2 →
    levRowsGo s1 todo2 ((List.range' 0 (s1.length + 1)).map (levMatrix s1 s2 i)) i =
      (List.range' 0 (s1.length + 1)).map (levMatrix s1 s2 (i + todo2.length)) := by
  intro todo2
  induction todo2 with
  | nil => intro i _; rfl
  | cons c2 rest2 ih =>
    intro i hdrop
    have hc2 : s2.getD i ' ' = c2 := getD_of_drop hdrop
    have hdrop' : s2.drop (i + 1) = rest2 := drop_succ_of_drop hdrop
    simp only [levRowsGo]
    have hrow : (i + 1) :: levRowGo c2 s1
        ((List.range' 0 (s1.length + 1)).map (levMatrix s1 s2 i)) (i + 1) =
        (List.range' 0 (s1.length + 1)).map (levMatrix s1 s2 (i + 1)) := by
      have h1 := levRowGo_spec s1 s2 i s1 0 rfl
      rw [hc2, levMatrix_succ_zero] at h1
      rw [h1]
      conv_rhs => rw [List.range'_succ, List.map_cons]
      rw [levMatrix_succ_zero]
    rw [hrow, ih (i + 1) hdrop']
    simp only [List.length_cons]
    rw [show i + (rest2.length + 1) = i + 1 + rest2.length from by omega]

/-- The row implementation computes the matrix recurrence. -/
theorem levenshteinDistance_eq_levMatrix (s1 s2 : Str) :
    levenshteinDistance s1 s2 = levMatrix s1 s2 s2.length s1.length := by
  unfold levenshteinDistance
  rw [List.range_eq_range']
  have hrow0 : (List.range' 0 (s1.length + 1)) =
      (List.range' 0 (s1.length + 1)).map (levMatrix s1 s2 0) := by
    rw [List.map_congr_left (fun a _ => levMatrix_zero s1 s2 a)]
    simp
  rw [hrow0, levRowsGo_spec s1 s2 s2 0 rfl]
  rw [List.range'_1_concat, List.map_append]
  simp

theorem levMatrix_symm (s1 s2 : Str) : ∀ (i j : Nat),
    levMatrix s1 s2 i j = levMatrix s2 s1 j i := by
  intro i
  induction i with
  | zero =>
    intro j
    cases j with
    | zero => rw [levMatrix_zero, levMatrix_zero]
    | succ j => rw [levMatrix_zero, levMatrix_succ_zero]
  | succ i ihi =>
    intro j
    induction j with
    | zero => rw [levMatrix_zero, levMatrix_succ_zero]
    | succ j ihj =>
      rw [levMatrix_succ_succ, levMatrix_succ_succ]
      by_cases h : s2.getD i ' ' = s1.getD j ' '
      · rw [if_pos h, if_pos h.symm, ihi j]
      · rw [if_neg h, if_neg (fun hh => h hh.symm)]
        rw [ihi j, ihi (j + 1), ihj]
        omega

theorem levMatrix_diag (s : Str) : ∀ i : Nat, levMatrix s s i i = 0 := by
  intro i
  induction i with
  | zero => rw [levMatrix_zero]
  | succ i ih =>
    rw [levMatrix_succ_succ, if_pos rfl, ih]

-- ----- guards from matched lines -----

theorem head_trim_not_ws {l : Str} {c : Char} {t' : Str} (h : trim l = c :: t') :
    isWs c = false := by
  by_cases hw : isWs c = true
  · have h2 := trimLeft_trim l
    rw [h, List.dropWhile_cons, if_pos hw] at h2
    have hlen := congrArg List.length h2
    have hle : (t'.dropWhile isWs).length ≤ t'.length :=
      (@List.dropWhile_sublist _ t' isWs).length_le
    simp only [List.length_cons] at hlen
    omega
  · exact Bool.not_eq_true _ |>.mp hw

theorem trim_code_ne_nil_of_line {code l : Str} {c : Char} {t' : Str}
    (hl : l ∈ splitRN code) (h : trim l = c :: t') : trim code ≠ [] := by
  have hw := head_trim_not_ws h
  have hc1 : c ∈ trim l := by rw [h]; simp
  have hc2 : c ∈ code := mem_of_mem_splitRN code l hl c (mem_of_mem_trim hc1)
  exact trim_ne_nil_of_mem hc2 hw

-- ==================== claims ====================

/-- C8: `levenshteinDistance` is symmetric (`levenshtein(a,b) =
levenshtein(b,a)` for all strings) and reflexively zero
(`levenshtein(a,a) = 0`). -/
theorem C8_levenshtein_symm_refl :
    (∀ a b : Str, levenshteinDistance a b = levenshteinDistance b a) ∧
    (∀ a : Str, levenshteinDistance a a = 0) := by
  constructor
  · intro a b
    rw [levenshteinDistance_eq_levMatrix, levenshteinDistance_eq_levMatrix,
      levMatrix_symm]
  · intro a
    rw [levenshteinDistance_eq_levMatrix, levMatrix_diag]

/-- C10: applying the `add-end` quick fix to any line list (including the
empty one) appends exactly one new final line `end`, leaving every
pre-existing line unchanged, regardless of the fix's stored `afterLine`. -/
theorem C10_add_end_appends : ∀ (afterLine : Nat) (lines : List Str),
    handlerAddEnd afterLine lines = lines ++ [str "end"] ∧
    (handlerAddEnd afterLine lines).length = lines.length + 1 ∧
    (handlerAddEnd afterLine lines).take lines.length = lines ∧
    (handlerAddEnd afterLine lines).getLastD [] = str "end" := by
  intro d lines
  refine ⟨rfl, by simp [handlerAddEnd], ?_, by simp [handlerAddEnd]⟩
  show (lines ++ [str "end"]).take lines.length = lines
  rw [List.take_left]

/-- C4 counterexample: the claim says a stale (out-of-range) target line
makes every fix kind a no-op, but the `add-end` handler appends `end`
unconditionally: on the one-line document `["a"]` with stored line 5 the
line list changes. -/
theorem C4_counterexample :
    [str "a"].length < 5 ∧ handlerAddEnd 5 [str "a"] ≠ [str "a"] := by decide

/-- C4 amended: on a stale line index the `replace` fix is a silent no-op;
the `add-end` fix always appends an `end` line regardless of the index; the
`define-node` fix clamps the insertion to the end of the document.  All
three are total functions (never throw). -/
theorem C4_amended :
    (∀ (dataLine : Nat) (oldT newT : Str) (lines : List Str),
        lines.length < dataLine → handlerReplace dataLine oldT newT lines = lines) ∧
    (∀ (dataLine : Nat) (lines : List Str),
        handlerAddEnd dataLine lines = lines ++ [str "end"]) ∧
    (∀ (dataLine : Nat) (nodeId : Str) (lines : List Str), lines.length < dataLine →
        handlerDefineNode dataLine nodeId lines =
          lines ++ [str "    " ++ nodeId ++ str "[" ++ nodeId ++ str "]"]) := by
  refine ⟨?_, fun _ _ => rfl, ?_⟩
  · intro dataLine oldT newT lines h
    unfold handlerReplace
    have hd : dataLine ≠ 0 := by omega
    rw [if_neg hd]
    rw [if_neg (by omega)]
  · intro dataLine nodeId lines h
    unfold handlerDefineNode
    have hd : dataLine ≠ 0 := by omega
    rw [if_neg hd]
    simp only []
    have hmin : min (dataLine - 1) lines.length = lines.length := by omega
    rw [hmin, List.take_length, List.drop_length]
    simp

theorem C4_amended_witness :
    ([str "a"].length < 5 ∧ handlerReplace 5 (str "x") (str "y") [str "a"] = [str "a"]) ∧
    handlerAddEnd 5 [str "a"] = [str "a", str "end"] ∧
    ([str "a"].length < 5 ∧
      handlerDefineNode 5 (str "B") [str "a"] = [str "a", str "    B[B]"]) :=
  ⟨⟨by decide, C4_amended.1 5 (str "x") (str "y") [str "a"] (by decide)⟩,
   (C4_amended.2.1 5 [str "a"]).trans (by decide),
   ⟨by decide, (C4_amended.2.2 5 (str "B") [str "a"] (by decide)).trans (by decide)⟩⟩

/-- C2 counterexample: `"graph ABC"` matches the claim's any-length
direction pattern with invalid direction `ABC`, yet `analyze` reports
nothing — the source pattern `[A-Z]{1,2}` never matches a three-letter
direction token. -/
theorem C2_counterexample :
    specDirectionCapture (trim (str "graph ABC")) = some (str "ABC") ∧
    validDirections.contains ((str "ABC").map asciiUpper) = false ∧
    analyze (str "graph ABC") = [] := by decide

/-- C1 counterexample: the claimed input — `Start` defined, `Strat`
referenced as an edge endpoint — produces NO possible-typo issue (the
extractor also places `Strat` into the node set, so the typo pass skips
it); `analyze` returns the empty list rather than one `dangling-edge`. -/
theorem C1_counterexample :
    analyze (str "Start[Start]\nStrat-->Stop") = [] := by decide

/-- C3 counterexample: within the typo pass itself issues are NOT in
non-decreasing line order: on `"Bddd[x]\nAccc->Z\nBddd->W"` the pass
reports line 2 (for truncated capture `Acc`) before line 1 (for truncated
capture `Bdd`, located at the first line containing it). -/
theorem C3_counterexample :
    (typoPass (splitRN (str "Bddd[x]\nAccc->Z\nBddd->W"))).map Issue.line = [2, 1] ∧
    ¬ List.Pairwise lineLE (typoPass (splitRN (str "Bddd[x]\nAccc->Z\nBddd->W"))) := by
  constructor
  · decide
  · intro h
    have hmap : List.Pairwise (fun a b => a ≤ b)
        ((typoPass (splitRN (str "Bddd[x]\nAccc->Z\nBddd->W"))).map Issue.line) := by
      rw [List.pairwise_map]
      exact h
    rw [(by decide :
      (typoPass (splitRN (str "Bddd[x]\nAccc->Z\nBddd->W"))).map Issue.line = [2, 1])]
      at hmap
    rcases List.pairwise_cons.mp hmap with ⟨h21, -⟩
    exact absurd (h21 1 (by simp)) (by decide)

/-- C3 amended: `analyze` is the concatenation of the direction,
subgraph-balance and typo passes in that order, and the direction and
subgraph passes each emit their issues in non-decreasing line order; the
typo pass, however, need not be line-ordered (see the counterexample). -/
theorem C3_amended :
    (∀ code : Str, trim code ≠ [] →
        analyze code = analyzeDirections (splitRN code) ++
          analyzeSubgraphs (splitRN code) ++ typoPass (splitRN code)) ∧
    (∀ lines : List Str, List.Pairwise lineLE (analyzeDirections lines)) ∧
    (∀ lines : List Str, List.Pairwise lineLE (analyzeSubgraphs lines)) :=
  ⟨fun _ h => analyze_eq h, fun lines => dirGo_sorted lines 0, analyzeSubgraphs_sorted⟩

theorem C3_amended_witness :
    trim (str "end") ≠ [] ∧
    analyze (str "end") = analyzeDirections (splitRN (str "end")) ++
      analyzeSubgraphs (splitRN (str "end")) ++ typoPass (splitRN (str "end")) :=
  ⟨by decide, C3_amended.1 (str "end") (by decide)⟩

/-- C6: a document whose subgraph openers and bare `end` lines form a
properly nested (balanced) sequence — with arbitrary other lines
interleaved — yields zero `missing-end` and zero `unexpected-end` issues. -/
theorem C6_balanced_no_issues : ∀ code : Str, BalancedLines (splitRN code) →
    (analyze code).countP isMissingEndIssue = 0 ∧
    (analyze code).countP isUnexpectedEndIssue = 0 := by
  intro code hbal
  by_cases htrim : trim code = []
  · rw [analyze_trivial htrim]
    exact ⟨rfl, rfl⟩
  · have hpre : ∀ pre suf, splitRN code = pre ++ suf →
        pre.countP isCloserLine ≤ ([] : List Nat).length + pre.countP isOpenerLine := by
      intro pre suf hps
      have h1 := hbal.1 pre.length (by rw [hps]; simp)
      rw [hps, List.take_left] at h1
      simpa using h1
    obtain ⟨hissues, hlen⟩ := subGo_balanced (splitRN code) 0 [] hpre
    have hstack : (analyzeSubgraphsGo (splitRN code) 0 [] []).2 = [] := by
      apply List.eq_nil_of_length_eq_zero
      have := hbal.2
      simp at hlen
      omega
    have hsub : analyzeSubgraphs (splitRN code) = [] := by
      rw [analyzeSubgraphs_eq, hissues, hstack]
      rfl
    rw [analyze_eq htrim]
    rw [List.countP_append, List.countP_append, List.countP_append, List.countP_append,
      hsub]
    have hdir : ∀ p : Issue → Bool,
        (∀ iss : Issue, iss.type = str "unknown-direction" → p iss = false) →
        (analyzeDirections (splitRN code)).countP p = 0 := by
      intro p hp
      rw [List.countP_eq_zero]
      intro iss hiss
      simp [hp iss (dirGo_shape (splitRN code) 0 iss hiss).1]
    have htypo : ∀ p : Issue → Bool,
        (∀ iss : Issue, iss.type = str "dangling-edge" → p iss = false) →
        (typoPass (splitRN code)).countP p = 0 := by
      intro p hp
      rw [List.countP_eq_zero]
      intro iss hiss
      rw [typoPass_eq] at hiss
      obtain ⟨r, ht, -⟩ := analyzeTypos_shape hiss
      simp [hp iss ht]
    constructor
    · rw [hdir _ (fun iss ht => by simp [isMissingEndIssue, ht, str]),
        htypo _ (fun iss ht => by simp [isMissingEndIssue, ht, str])]
      rfl
    · rw [hdir _ (fun iss ht => by simp [isUnexpectedEndIssue, ht, str]),
        htypo _ (fun iss ht => by simp [isUnexpectedEndIssue, ht, str])]
      rfl

theorem C6_witness :
    BalancedLines (splitRN (str "subgraph a\nsubgraph b\nA-->B\nend\nend")) ∧
    (analyze (str "subgraph a\nsubgraph b\nA-->B\nend\nend")).countP
        isMissingEndIssue = 0 ∧
    (analyze (str "subgraph a\nsubgraph b\nA-->B\nend\nend")).countP
        isUnexpectedEndIssue = 0 :=
  ⟨by constructor
      · decide
      · decide,
   C6_balanced_no_issues (str "subgraph a\nsubgraph b\nA-->B\nend\nend")
     (by constructor
         · decide
         · decide)⟩

/-- C9: every issue returned by `analyze` on a non-empty source text has a
1-based line number between 1 and the number of lines of the input and a
1-based column number of at least 1. -/
theorem C9_issue_positions : ∀ code : Str, code ≠ [] →
    ∀ iss ∈ analyze code,
      1 ≤ iss.line ∧ iss.line ≤ (splitRN code).length ∧ 1 ≤ iss.column := by
  intro code _ iss hiss
  rcases analyze_cases hiss with h | h | h
  · obtain ⟨-, hc, hlo, hhi, -⟩ := dirGo_shape (splitRN code) 0 iss h
    exact ⟨by omega, by omega, hc⟩
  · obtain ⟨hlo, hhi, hc, -⟩ := analyzeSubgraphs_shape (splitRN code) iss h
    exact ⟨hlo, hhi, by omega⟩
  · rw [typoPass_eq] at h
    obtain ⟨r, -, hc, hlo, hhi, -⟩ := analyzeTypos_shape h
    exact ⟨hlo, hhi, hc⟩

theorem C9_witness :
    (str "end" : Str) ≠ [] ∧
    (1 ≤ (unexpectedEndIssue 1).line ∧
      (unexpectedEndIssue 1).line ≤ (splitRN (str "end")).length ∧
      1 ≤ (unexpectedEndIssue 1).column) :=
  ⟨by decide, C9_issue_positions (str "end") (by decide) (unexpectedEndIssue 1)
    (by decide)⟩

/-- C7: if analysis finds exactly one `missing-end` issue, applying the
generated `add-end` fix (via the quick-fix pipeline: split on newline,
push `end`, re-join) yields a document whose re-analysis has zero
`missing-end` issues; in particular on `"subgraph S1\nA-->B"` the fix
produces `"subgraph S1\nA-->B\nend"`. -/
theorem C7_append_end_roundtrip :
    (∀ (code : Str) (dataLine : Nat),
        (analyze code).countP isMissingEndIssue = 1 →
        (analyze (applyAddEndFix dataLine code)).countP isMissingEndIssue = 0) ∧
    applyAddEndFix 2 (str "subgraph S1\nA-->B") = str "subgraph S1\nA-->B\nend" := by
  constructor
  · intro code d h
    exact countMissing_after_fix h d
  · rw [applyAddEndFix_eq]
    decide

theorem C7_witness :
    (analyze (str "subgraph S1\nA-->B")).countP isMissingEndIssue = 1 ∧
    (analyze (applyAddEndFix 2 (str "subgraph S1\nA-->B"))).countP
        isMissingEndIssue = 0 :=
  ⟨by decide, C7_append_end_roundtrip.1 (str "subgraph S1\nA-->B") 2 (by decide)⟩

/-- Decompose a line list at a known index. -/
theorem lines_decomp {lines : List Str} {i : Nat} {l : Str}
    (h : lines[i]? = some l) : lines = lines.take i ++ l :: lines.drop (i + 1) := by
  obtain ⟨hlt, hgeti⟩ := List.getElem?_eq_some_iff.mp h
  conv_lhs => rw [← List.take_append_drop i lines]
  rw [List.drop_eq_getElem_cons hlt, hgeti]

theorem length_take_of_getElem {lines : List Str} {i : Nat} {l : Str}
    (h : lines[i]? = some l) : (lines.take i).length = i := by
  obtain ⟨hlt, -⟩ := List.getElem?_eq_some_iff.mp h
  rw [List.length_take]
  omega

/-- C2 amended: the code's pattern restricts the direction token to one or
two letters (`[A-Z]{1,2}` with the `i` flag).  For every line whose trimmed
text matches that pattern with an upper-cased direction outside
`{TD, TB, BT, RL, LR}`, `analyze` emits an `unknown-direction` issue at
that line whose `replace` fix offers exactly the five valid directions. -/
theorem C2_amended : ∀ (code : Str) (i : Nat) (l cap : Str),
    (splitRN code)[i]? = some l →
    matchDirection (trim l) = some cap →
    validDirections.contains (cap.map asciiUpper) = false →
    ∃ iss ∈ analyze code, iss.type = str "unknown-direction" ∧ iss.line = i + 1 ∧
      iss.quickFix = some (QuickFix.replace (cap.map asciiUpper) validDirections) := by
  intro code i l cap hget hmatch hvalid
  obtain ⟨c, t', htl, hc⟩ := matchDirection_head hmatch
  have hguard : ((trim l).isEmpty || startsWithLit (str "%%") (trim l)) = false := by
    rcases hc with hc | hc
    · exact guards_of_head htl hc (by decide)
    · exact guards_of_head htl hc (by decide)
  have hline : directionLineIssues i l =
      [unknownDirectionIssue (i + 1) ((indexOfSub cap (trim l)).getD 0 + 1)
        (cap.map asciiUpper)] := by
    unfold directionLineIssues
    simp only []
    rw [hguard]
    simp only [Bool.false_eq_true, if_false]
    rw [hmatch]
    simp only []
    rw [hvalid]
    simp only [Bool.false_eq_true, if_false]
  have hmem1 : unknownDirectionIssue (i + 1)
      ((indexOfSub cap (trim l)).getD 0 + 1) (cap.map asciiUpper) ∈
      analyzeDirections (splitRN code) := by
    unfold analyzeDirections
    rw [lines_decomp hget, dirGo_append, length_take_of_getElem hget, Nat.zero_add]
    simp only [analyzeDirectionsGo]
    rw [hline]
    exact List.mem_append.mpr (Or.inr (List.mem_append.mpr (Or.inl
      (List.mem_singleton.mpr rfl))))
  have htrim : trim code ≠ [] :=
    trim_code_ne_nil_of_line (List.getElem?_mem hget) htl
  refine ⟨unknownDirectionIssue (i + 1) ((indexOfSub cap (trim l)).getD 0 + 1)
    (cap.map asciiUpper), ?_, rfl, rfl, rfl⟩
  rw [analyze_eq htrim]
  exact List.mem_append.mpr (Or.inl (List.mem_append.mpr (Or.inl hmem1)))

theorem C2_amended_witness :
    (splitRN (str "graph XX"))[0]? = some (str "graph XX") ∧
    matchDirection (trim (str "graph XX")) = some (str "XX") ∧
    validDirections.contains ((str "XX").map asciiUpper) = false ∧
    (∃ iss ∈ analyze (str "graph XX"), iss.type = str "unknown-direction" ∧
      iss.line = 0 + 1 ∧
      iss.quickFix = some (QuickFix.replace ((str "XX").map asciiUpper)
        validDirections)) :=
  ⟨by decide, by decide, by decide,
   C2_amended (str "graph XX") 0 (str "graph XX") (str "XX")
     (by decide) (by decide) (by decide)⟩

/-- C1 amended: on a source text that references `Strat` as a word-bounded
token on a non-comment line (as an edge endpoint is), the typo pass never
reports `Strat` — the extractor also places every such identifier into the
node set, so no `define-node` fix for `Strat` is produced; in particular
the claimed input yields no issues at all. -/
theorem C1_amended :
    (∀ code : Str,
        (∃ l ∈ splitRN code, startsWithLit (str "%%") (trim l) = false ∧
            str "Strat" ∈ wordRuns (trim l)) →
        ∀ iss ∈ analyze code, ∀ nid, iss.quickFix = some (QuickFix.defineNode nid) →
          nid ≠ str "Strat") ∧
    analyze (str "Start[Start]\nStrat-->Stop") = [] := by
  constructor
  · rintro code ⟨l, hl, hcm, hwr⟩ iss hiss nid hqf
    intro hnid
    subst hnid
    have hmem : str "Strat" ∈ (extractNodes (splitRN code)).1 :=
      extractNodes_mem hl hcm hwr (by decide)
    rcases analyze_cases hiss with h | h | h
    · obtain ⟨-, -, -, -, d, hqf2⟩ := dirGo_shape (splitRN code) 0 iss h
      rw [hqf] at hqf2
      simp at hqf2
    · obtain ⟨-, -, -, hor⟩ := analyzeSubgraphs_shape (splitRN code) iss h
      rcases hor with ⟨-, hq⟩ | ⟨-, hq⟩ <;> rw [hqf] at hq <;> simp at hq
    · rw [typoPass_eq] at h
      obtain ⟨r, -, -, -, -, hq, hcont⟩ := analyzeTypos_shape h
      rw [hqf] at hq
      have hr : str "Strat" = r := by
        have := Option.some.inj hq
        injection this
      rw [← hr] at hcont
      have htrue : (extractNodes (splitRN code)).1.contains (str "Strat") = true :=
        List.elem_iff.mpr hmem
      exact absurd (htrue.symm.trans hcont) (by decide)
  · decide

theorem C1_amended_witness :
    (∃ l ∈ splitRN (str "Start[Start]\nStrat-->Stop"),
        startsWithLit (str "%%") (trim l) = false ∧
        str "Strat" ∈ wordRuns (trim l)) ∧
    (∀ iss ∈ analyze (str "Start[Start]\nStrat-->Stop"), ∀ nid,
        iss.quickFix = some (QuickFix.defineNode nid) → nid ≠ str "Strat") :=
  ⟨by decide, C1_amended.1 (str "Start[Start]\nStrat-->Stop") (by decide)⟩

/-- C5: a bare `end` line (case-insensitive, surrounding whitespace
allowed) at a point where the subgraph stack is empty makes `analyze` emit
exactly one `unexpected-end` issue at that line — regardless of what
follows — and every `unexpected-end` issue carries no quick fix. -/
theorem C5_unexpected_end : ∀ (code : Str) (i : Nat) (l : Str),
    (splitRN code)[i]? = some l →
    matchEndLine (trim l) = true →
    subStack ((splitRN code).take i) = [] →
    (analyze code).countP
        (fun iss => isUnexpectedEndIssue iss && iss.line == i + 1) = 1 ∧
    (∀ iss ∈ analyze code, isUnexpectedEndIssue iss = true → iss.quickFix = none) := by
  intro code i l hget hend hstack
  obtain ⟨c, t', htl, hc⟩ := matchEndLine_head hend
  have htrim : trim code ≠ [] := trim_code_ne_nil_of_line (List.getElem?_mem hget) htl
  have hguard : ((trim l).isEmpty || startsWithLit (str "%%") (trim l)) = false :=
    guards_of_head htl hc (by decide)
  have hnsub : matchSubgraphStart (trim l) = false := not_subgraphStart_of_endLine hend
  have hsecond : ∀ iss ∈ analyze code, isUnexpectedEndIssue iss = true →
      iss.quickFix = none := by
    intro iss hiss hu
    have htype : iss.type = str "unexpected-end" := by
      simpa [isUnexpectedEndIssue] using hu
    rcases analyze_cases hiss with h | h | h
    · have ht := (dirGo_shape (splitRN code) 0 iss h).1
      rw [htype] at ht
      exact absurd ht (by decide)
    · obtain ⟨-, -, -, hor⟩ := analyzeSubgraphs_shape (splitRN code) iss h
      rcases hor with ⟨-, hq⟩ | ⟨ht2, -⟩
      · exact hq
      · rw [htype] at ht2
        exact absurd ht2 (by decide)
    · rw [typoPass_eq] at h
      obtain ⟨r, ht2, -⟩ := analyzeTypos_shape h
      rw [htype] at ht2
      exact absurd ht2 (by decide)
  refine ⟨?_, hsecond⟩
  rw [analyze_eq htrim, List.countP_append, List.countP_append]
  have hdir0 : (analyzeDirections (splitRN code)).countP
      (fun iss => isUnexpectedEndIssue iss && iss.line == i + 1) = 0 := by
    rw [List.countP_eq_zero]
    intro iss hiss
    have ht := (dirGo_shape (splitRN code) 0 iss hiss).1
    simp [isUnexpectedEndIssue, ht, str]
  have htypo0 : (typoPass (splitRN code)).countP
      (fun iss => isUnexpectedEndIssue iss && iss.line == i + 1) = 0 := by
    rw [List.countP_eq_zero]
    intro iss hiss
    rw [typoPass_eq] at hiss
    obtain ⟨r, ht, -⟩ := analyzeTypos_shape hiss
    simp [isUnexpectedEndIssue, ht, str]
  rw [hdir0, htypo0, analyzeSubgraphs_eq, List.countP_append]
  have hmiss0 : ((analyzeSubgraphsGo (splitRN code) 0 [] []).2.reverse.map
      (fun startLine => missingEndIssue startLine (splitRN code).length)).countP
      (fun iss => isUnexpectedEndIssue iss && iss.line == i + 1) = 0 := by
    rw [List.countP_eq_zero]
    intro iss hiss
    obtain ⟨n, -, hn⟩ := List.mem_map.mp hiss
    subst hn
    simp [isUnexpectedEndIssue, missingEndIssue, str]
  rw [hmiss0]
  have hst : (analyzeSubgraphsGo ((splitRN code).take i) 0 [] []).2 = [] := hstack
  have hloop : (analyzeSubgraphsGo (splitRN code) 0 [] []).1 =
      (analyzeSubgraphsGo ((splitRN code).take i) 0 [] []).1 ++
      [unexpectedEndIssue (i + 1)] ++
      (analyzeSubgraphsGo ((splitRN code).drop (i + 1)) (i + 1) [] []).1 := by
    conv_lhs => rw [lines_decomp hget]
    rw [subGo_append, length_take_of_getElem hget, Nat.zero_add, hst, subGo_cons]
    simp only [hguard, Bool.false_eq_true, if_false, hnsub, hend, if_true]
    rw [subGo_acc]
  rw [hloop, List.countP_append, List.countP_append]
  have h1 : (analyzeSubgraphsGo ((splitRN code).take i) 0 [] []).1.countP
      (fun iss => isUnexpectedEndIssue iss && iss.line == i + 1) = 0 := by
    rw [List.countP_eq_zero]
    intro iss hiss
    obtain ⟨ha, -, -, -, -, -⟩ := subGo_master ((splitRN code).take i) 0 []
      (by simp) (by simp)
    obtain ⟨-, -, -, -, hhi⟩ := ha iss hiss
    rw [length_take_of_getElem hget] at hhi
    have hne : iss.line ≠ i + 1 := by omega
    simp [hne]
  have h2 : ([unexpectedEndIssue (i + 1)] : List Issue).countP
      (fun iss => isUnexpectedEndIssue iss && iss.line == i + 1) = 1 := by
    simp [List.countP_cons, isUnexpectedEndIssue, unexpectedEndIssue]
  have h3 : (analyzeSubgraphsGo ((splitRN code).drop (i + 1)) (i + 1) [] []).1.countP
      (fun iss => isUnexpectedEndIssue iss && iss.line == i + 1) = 0 := by
    rw [List.countP_eq_zero]
    intro iss hiss
    obtain ⟨ha, -, -, -, -, -⟩ := subGo_master ((splitRN code).drop (i + 1)) (i + 1) []
      (by simp) (by simp)
    obtain ⟨-, -, -, hlo, -⟩ := ha iss hiss
    have hne : iss.line ≠ i + 1 := by omega
    simp [hne]
  rw [h1, h2, h3]

theorem C5_witness :
    (splitRN (str "end"))[0]? = some (str "end") ∧
    matchEndLine (trim (str "end")) = true ∧
    subStack ((splitRN (str "end")).take 0) = [] ∧
    ((analyze (str "end")).countP
        (fun iss => isUnexpectedEndIssue iss && iss.line == 0 + 1) = 1 ∧
      (∀ iss ∈ analyze (str "end"), isUnexpectedEndIssue iss = true →
        iss.quickFix = none)) :=
  ⟨by decide, by decide, by decide,
   C5_unexpected_end (str "end") 0 (str "end") (by decide) (by decide) (by decide)⟩

end Merdia
